import Mathlib

/-!
Verification of the ArcDB engine core against its specification.

The Rust sources are shallowly embedded: pure functions become Lean
functions, stateful code becomes explicit state passing, machine integers
become Nat/Int with explicit two's-complement wrapping where the source
casts, and fallible code returns Except.  Each definition carries a doc
comment naming the Rust item it translates.

Modelling conventions, stated once:
  * Byte buffers are lists of Nat; every byte the engine writes is < 256.
  * A Rust u64/u32/u16 field is a Nat; an i64/i32 is an Int (theorems that
    need the machine range state it as a hypothesis, as those ranges are
    invariants of the Rust types).
  * f64 values are represented by their raw 64-bit pattern (a Nat), which
    is exactly the equality the engine uses (Value::eq compares f64 by
    to_bits).
  * The buffer pool is a write-back cache between HeapFile and the disk
    file; the embedding reads and writes pages directly, which is the
    view a single-threaded caller observes through it.
  * Rust indexing (slice[i], slice[a..b]) panics when out of range; where
    a modelled code path can reach such an access the embedding returns a
    distinguished out-of-bounds error value (oob), and the doc comment of
    the definition says so.
-/

namespace ArcDB

/-- Little-endian byte encoding of a natural number in w bytes, the
translation of to_le_bytes on the unsigned value (tuple.rs uses
to_le_bytes on i32/i64/f64-bits/u32). -/
def natToLe : Nat → Nat → List Nat
  | 0, _ => []
  | w + 1, n => (n % 256) :: natToLe w (n / 256)

/-- Little-endian decoding of w bytes read from buffer bs starting at
offset off (missing bytes read as 0; callers bounds-check first, as the
source's indexing panics otherwise). -/
def leNat (bs : List Nat) (off : Nat) : Nat → Nat
  | 0 => 0
  | w + 1 => bs.getD off 0 + 256 * leNat bs (off + 1) w

/-- Two's-complement encoding of an i32/i64 value into w little-endian
bytes: the translation of i.to_le_bytes() in Tuple::to_bytes. -/
def intToLe (w : Nat) (i : Int) : List Nat :=
  natToLe w (i % ((2 : Int) ^ (8 * w))).toNat

/-- Two's-complement reading of w little-endian bytes as an iN value:
the translation of iN::from_le_bytes in Tuple::from_bytes. -/
def leInt (bs : List Nat) (off w : Nat) : Int :=
  let n := leNat bs off w
  if n < 2 ^ (8 * w - 1) then (n : Int) else (n : Int) - 2 ^ (8 * w)

/-- The Value enum of storage/tuple.rs.  Float holds the raw f64 bit
pattern (engine equality is Value::eq, which compares floats with
to_bits, so structural equality of this type is exactly the engine's
equality, including NaN = NaN and -0.0 distinct from +0.0).  String
holds the UTF-8 bytes of the Rust String. -/
inductive Value
  | null
  | boolean (b : Bool)
  | integer (i : Int)
  | bigint (i : Int)
  | float (bits : Nat)
  | string (s : List Nat)
  | date (d : Int)
  | timestamp (t : Int)
  | bytes (b : List Nat)
deriving DecidableEq

/-- The Tuple struct of storage/tuple.rs: an ordered list of values. -/
structure Tuple where
  values : List Value
deriving DecidableEq

/-- One value's contribution to Tuple::to_bytes (tuple.rs:358-396): the
1-byte kind tag, then the payload; String/Bytes payloads are preceded by
their length written as a u32 (the Rust cast len as u32 wraps, hence
the mod 2^32). -/
def encodeValue : Value → List Nat
  | .null => [0]
  | .boolean b => [1, if b then 1 else 0]
  | .integer i => 2 :: intToLe 4 i
  | .bigint i => 3 :: intToLe 8 i
  | .float bits => 4 :: natToLe 8 bits
  | .string s => 5 :: (natToLe 4 (s.length % 2 ^ 32) ++ s)
  | .date d => 6 :: intToLe 4 d
  | .timestamp t => 7 :: intToLe 8 t
  | .bytes b => 8 :: (natToLe 4 (b.length % 2 ^ 32) ++ b)

/-- Tuple::to_bytes (tuple.rs:353-399): a u32 little-endian count (the
cast values.len() as u32 wraps, hence the mod 2^32) followed by each
encoded value in order. -/
def Tuple.toBytes (t : Tuple) : List Nat :=
  natToLe 4 (t.values.length % 2 ^ 32) ++ t.values.flatMap encodeValue

/-- Decode failures of Tuple::from_bytes.  headerTooShort and
bufferOverflow and invalidUtf8 and unknownTag are the source's
Err(String) returns; oob marks the places where the source indexes or
slices past the end of the buffer, which panics in Rust. -/
inductive DecodeErr
  | headerTooShort
  | bufferOverflow
  | unknownTag (tag : Nat)
  | invalidUtf8
  | oob
deriving DecidableEq

/-- UTF-8 validity of a byte list: the check String::from_utf8 performs
on the String payload in Tuple::from_bytes (tag 5).  Follows the RFC
3629 table: C0/C1 and overlong bytes, surrogates (ED A0..BF) and values
above U+10FFFF (F4 90..) are rejected. -/
def validUtf8 : List Nat → Bool
  | [] => true
  | b :: rest =>
    if b ≤ 0x7F then validUtf8 rest
    else if b < 0xC2 then false
    else if b ≤ 0xDF then
      match rest with
      | c1 :: r => decide (0x80 ≤ c1 ∧ c1 ≤ 0xBF) && validUtf8 r
      | _ => false
    else if b ≤ 0xEF then
      match rest with
      | c1 :: c2 :: r =>
        let lo1 : Nat := if b = 0xE0 then 0xA0 else 0x80
        let hi1 : Nat := if b = 0xED then 0x9F else 0xBF
        decide (lo1 ≤ c1 ∧ c1 ≤ hi1) && decide (0x80 ≤ c2 ∧ c2 ≤ 0xBF) && validUtf8 r
      | _ => false
    else if b ≤ 0xF4 then
      match rest with
      | c1 :: c2 :: c3 :: r =>
        let lo1 : Nat := if b = 0xF0 then 0x90 else 0x80
        let hi1 : Nat := if b = 0xF4 then 0x8F else 0xBF
        decide (lo1 ≤ c1 ∧ c1 ≤ hi1) && decide (0x80 ≤ c2 ∧ c2 ≤ 0xBF) &&
          decide (0x80 ≤ c3 ∧ c3 ≤ 0xBF) && validUtf8 r
      | _ => false
    else false

/-- The value-reading loop of Tuple::from_bytes (tuple.rs:413-510),
reading n values from bs starting at offset off.  The source checks
offset only before reading a tag; payload reads index the buffer
directly (bytes[offset + k]) and String/Bytes payloads are sliced
(bytes[offset..offset + len]), so a truncated payload is an
out-of-bounds access, modelled as DecodeErr.oob. -/
def decodeValues (bs : List Nat) : Nat → Nat → Except DecodeErr (List Value)
  | 0, _ => .ok []
  | n + 1, off =>
    if off ≥ bs.length then .error .bufferOverflow
    else
      let tag := bs.getD off 0
      let off := off + 1
      if tag = 0 then (decodeValues bs n off).map (Value.null :: ·)
      else if tag = 1 then
        if bs.length ≤ off then .error .oob
        else (decodeValues bs n (off + 1)).map (Value.boolean (bs.getD off 0 ≠ 0) :: ·)
      else if tag = 2 then
        if bs.length < off + 4 then .error .oob
        else (decodeValues bs n (off + 4)).map (Value.integer (leInt bs off 4) :: ·)
      else if tag = 3 then
        if bs.length < off + 8 then .error .oob
        else (decodeValues bs n (off + 8)).map (Value.bigint (leInt bs off 8) :: ·)
      else if tag = 4 then
        if bs.length < off + 8 then .error .oob
        else (decodeValues bs n (off + 8)).map (Value.float (leNat bs off 8) :: ·)
      else if tag = 5 then
        if bs.length < off + 4 then .error .oob
        else
          let sLen := leNat bs off 4
          let off2 := off + 4
          if off2 + sLen > bs.length then .error .oob
          else
            let sb := (bs.drop off2).take sLen
            if validUtf8 sb then (decodeValues bs n (off2 + sLen)).map (Value.string sb :: ·)
            else .error .invalidUtf8
      else if tag = 6 then
        if bs.length < off + 4 then .error .oob
        else (decodeValues bs n (off + 4)).map (Value.date (leInt bs off 4) :: ·)
      else if tag = 7 then
        if bs.length < off + 8 then .error .oob
        else (decodeValues bs n (off + 8)).map (Value.timestamp (leInt bs off 8) :: ·)
      else if tag = 8 then
        if bs.length < off + 4 then .error .oob
        else
          let bLen := leNat bs off 4
          let off2 := off + 4
          if off2 + bLen > bs.length then .error .oob
          else (decodeValues bs n (off2 + bLen)).map (Value.bytes ((bs.drop off2).take bLen) :: ·)
      else .error (.unknownTag tag)

/-- Tuple::from_bytes (tuple.rs:402-513): reject buffers shorter than the
4-byte header, read the u32 count, then decode that many values from
offset 4. -/
def Tuple.fromBytes (bs : List Nat) : Except DecodeErr Tuple :=
  if bs.length < 4 then .error .headerTooShort
  else (decodeValues bs (leNat bs 0 4) 4).map Tuple.mk

/-- Whether an f64 bit pattern is a NaN: exponent field all ones and a
non-zero mantissa. -/
def f64IsNan (bits : Nat) : Bool :=
  bits / 2 ^ 52 % 2 ^ 11 = 2047 && bits % 2 ^ 52 ≠ 0

/-- Sign-magnitude key of an f64 bit pattern: for non-NaN doubles the
IEEE-754 order used by f64::partial_cmp coincides with the integer order
of this key (both zeros map to 0, so -0.0 and +0.0 compare equal). -/
def f64Key (bits : Nat) : Int :=
  if bits < 2 ^ 63 then (bits : Int) else -(((bits - 2 ^ 63) : Nat) : Int)

/-- f64::partial_cmp as used by Value::compare: None when either side is
NaN, otherwise the IEEE-754 order. -/
def f64PartialCmp (a b : Nat) : Option Ordering :=
  if f64IsNan a || f64IsNan b then none else some (compare (f64Key a) (f64Key b))

/-- The f64 bit pattern of a non-negative integer m (with the given
sign), rounding to nearest-even: the semantics of the Rust casts
i as f64 in Value::compare.  Exact for m < 2^53. -/
def natToF64bits (sign : Bool) (m : Nat) : Nat :=
  let sgn : Nat := if sign then 2 ^ 63 else 0
  if m = 0 then sgn
  else
    let e := Nat.log2 m
    if e ≤ 52 then sgn + (e + 1023) * 2 ^ 52 + (m * 2 ^ (52 - e) - 2 ^ 52)
    else
      let sh := e - 52
      let q := m / 2 ^ sh
      let r := m % 2 ^ sh
      let q' := if r > 2 ^ (sh - 1) ∨ (r = 2 ^ (sh - 1) ∧ q % 2 = 1) then q + 1 else q
      if q' = 2 ^ 53 then sgn + (e + 1 + 1023) * 2 ^ 52
      else sgn + (e + 1023) * 2 ^ 52 + (q' - 2 ^ 52)

/-- The Rust cast i as f64 for an i32/i64 value (round to nearest-even). -/
def intToF64bits (i : Int) : Nat :=
  natToF64bits (decide (i < 0)) i.natAbs

/-- Lexicographic byte order, the Ord instances of Rust String (byte
order of the UTF-8 encoding) and Vec of u8 used by Value::compare. -/
def listLexCompare : List Nat → List Nat → Ordering
  | [], [] => .eq
  | [], _ :: _ => .lt
  | _ :: _, [] => .gt
  | a :: as', b :: bs' =>
    match compare a b with
    | .eq => listLexCompare as' bs'
    | o => o

/-- Value::compare (tuple.rs:139-167): Null below everything, numeric
kinds widened through f64, strings and bytes lexicographic, None for
incompatible kinds. -/
def Value.compare : Value → Value → Option Ordering
  | .null, .null => some .eq
  | .null, _ => some .lt
  | _, .null => some .gt
  | .boolean a, .boolean b => some (Ord.compare a b)
  | .integer a, .integer b => some (Ord.compare a b)
  | .integer a, .bigint b => some (Ord.compare a b)
  | .bigint a, .integer b => some (Ord.compare a b)
  | .bigint a, .bigint b => some (Ord.compare a b)
  | .float a, .float b => f64PartialCmp a b
  | .integer a, .float b => f64PartialCmp (intToF64bits a) b
  | .float a, .integer b => f64PartialCmp a (intToF64bits b)
  | .bigint a, .float b => f64PartialCmp (intToF64bits a) b
  | .float a, .bigint b => f64PartialCmp a (intToF64bits b)
  | .string a, .string b => some (listLexCompare a b)
  | .date a, .date b => some (Ord.compare a b)
  | .timestamp a, .timestamp b => some (Ord.compare a b)
  | .bytes a, .bytes b => some (listLexCompare a b)
  | _, _ => none

/-- The IndexKey newtype of storage/btree.rs: a composite key over
values. -/
structure IndexKey where
  vals : List Value
deriving DecidableEq

/-- The for loop of IndexKey::compare over the zipped value lists: some
o is an early return (the source returns Equal when Value::compare
yields None), none means the shorter list was exhausted. -/
def ikAux : List Value → List Value → Option Ordering
  | x :: xs, y :: ys =>
    match Value.compare x y with
    | some .eq => ikAux xs ys
    | some o => some o
    | none => some .eq
  | _, _ => none

/-- IndexKey::compare (btree.rs:36-45): compare zipped values, falling
back to comparing lengths. -/
def IndexKey.compare (a b : IndexKey) : Ordering :=
  (ikAux a.vals b.vals).getD (Ord.compare a.vals.length b.vals.length)

/-- PAGE_SIZE of storage/page.rs. -/
def PAGE_SIZE : Nat := 4096

/-- PAGE_HEADER_SIZE of storage/page.rs. -/
def PAGE_HEADER_SIZE : Nat := 24

/-- One slot-directory entry of a page together with the payload bytes
its (offset, size) pair makes readable.  The byte-level page keeps
payloads at explicit offsets; since live regions never overlap (fresh
placements always go below free_space_offset and in-place updates stay
inside the old region), the readable bytes of each slot are exactly
this list, and delete only zeroes the directory size. -/
structure Slot where
  data : List Nat
  size : Nat
deriving DecidableEq

/-- The Page of storage/page.rs, at slot granularity: page_lsn and
free_space_offset from the header, and the slot directory in order
(tuple_count = slots.length).  page_id is the page's index in its heap
file; page_type and the raw 4096-byte image are not consulted by any
embedded operation. -/
structure Page where
  lsn : Nat
  freeOff : Nat
  slots : List Slot
deriving DecidableEq

/-- Page::new (page.rs:69-79): empty directory, free space starts at
the page end. -/
def Page.new : Page :=
  { lsn := 0, freeOff := PAGE_SIZE, slots := [] }

/-- PageHeader::free_space (page.rs:49-51):
free_space_offset - header - 4 bytes per directory entry.  Nat
subtraction truncates at 0; the Rust usize arithmetic underflows
instead, so this definition is faithful exactly on pages satisfying
Page.wf (every page the engine writes does). -/
def Page.freeSpace (p : Page) : Nat :=
  p.freeOff - PAGE_HEADER_SIZE - 4 * p.slots.length

/-- Well-formedness every engine-written page header satisfies:
free_space_offset within the page and past the header and directory. -/
def Page.wf (p : Page) : Prop :=
  p.freeOff ≤ PAGE_SIZE ∧ PAGE_HEADER_SIZE + 4 * p.slots.length ≤ p.freeOff

instance (p : Page) : Decidable p.wf := by
  unfold Page.wf; infer_instance

/-- Page::insert_tuple (page.rs:205-228): reject when free space is
under payload + 4, else append a directory entry of the payload's size,
move free_space_offset down by the payload, and return the old
tuple_count as the slot number. -/
def Page.insertTuple (p : Page) (data : List Nat) : Option (Page × Nat) :=
  let size := data.length
  if p.freeSpace < size + 4 then none
  else
    some ({ p with freeOff := p.freeOff - size, slots := p.slots ++ [⟨data, size⟩] },
      p.slots.length)

/-- Page::update_tuple (page.rs:231-273): out-of-range slot fails; a
payload no larger than the recorded size overwrites in place (recording
the new size, free_space_offset unchanged); a larger payload is placed
at the tail when free space allows, repointing the slot; else fail. -/
def Page.updateTuple (p : Page) (slotNum : Nat) (data : List Nat) : Option Page :=
  if p.slots.length ≤ slotNum then none
  else
    let old := p.slots.getD slotNum ⟨[], 0⟩
    let newSize := data.length
    if newSize ≤ old.size then
      some { p with slots := p.slots.set slotNum ⟨data, newSize⟩ }
    else if newSize ≤ p.freeSpace then
      some { p with freeOff := p.freeOff - newSize, slots := p.slots.set slotNum ⟨data, newSize⟩ }
    else none

/-- Page::delete_tuple (page.rs:276-286): out-of-range slot fails; else
the directory size is set to 0 (a tombstone) and nothing else changes
tuple_count is not decreased and no slot is renumbered. -/
def Page.deleteTuple (p : Page) (slotNum : Nat) : Option Page :=
  if p.slots.length ≤ slotNum then none
  else some { p with slots := p.slots.set slotNum ⟨(p.slots.getD slotNum ⟨[], 0⟩).data, 0⟩ }

/-- Page::get_tuple (page.rs:289-305): None out of range or on a
tombstone, else the payload bytes the directory entry points at. -/
def Page.getTuple (p : Page) (slotNum : Nat) : Option (List Nat) :=
  if p.slots.length ≤ slotNum then none
  else
    let s := p.slots.getD slotNum ⟨[], 0⟩
    if s.size = 0 then none else some s.data

/-- Page::set_lsn (page.rs:94-97). -/
def Page.setLsn (p : Page) (lsn : Nat) : Page :=
  { p with lsn := lsn }

/-- The SlotId of storage/heap.rs: (page_id, slot_number). -/
structure SlotId where
  pageId : Nat
  slotNum : Nat
deriving DecidableEq

/-- Errors of the engine (error.rs), restricted to the variants the
embedded operations raise. -/
inductive EngErr
  | storage (msg : String)
  | execution (msg : String)
  | nullNotAllowed
  | tableNotFound
  | internal (msg : String)
deriving DecidableEq

/-- The HeapFile of storage/heap.rs over the table's page file: pages
indexed by page_id (the disk manager allocates them densely from 0 and
keeps them in the file forever), and last_page_id, the page tried first
on insert.  table_id and the buffer pool handle are connection
plumbing with no bearing on the embedded operations. -/
structure HeapFile where
  pages : List Page
  lastPageId : Nat
deriving DecidableEq

/-- HeapFile::new (heap.rs:46-66): one freshly allocated first page. -/
def HeapFile.new : HeapFile :=
  { pages := [Page.new], lastPageId := 0 }

/-- HeapFile::insert (heap.rs:86-121): encode the tuple, try the last
page; if it rejects, allocate a fresh page (which stays in the file
even on failure, as the disk manager extends the file at allocation),
point last_page_id at it and insert there, failing with the storage
error of heap.rs:116 if even the fresh page rejects.  The state is
returned alongside the result because the Rust method mutates self
before an error return. -/
def HeapFile.insert (h : HeapFile) (t : Tuple) : Except EngErr SlotId × HeapFile :=
  let bytes := t.toBytes
  match h.pages[h.lastPageId]? with
  | none => (.error (.internal "page not in file"), h)
  | some p =>
    match p.insertTuple bytes with
    | some (p', sn) =>
      (.ok ⟨h.lastPageId, sn⟩, { h with pages := h.pages.set h.lastPageId p' })
    | none =>
      let newPid := h.pages.length
      match Page.new.insertTuple bytes with
      | some (p', sn) =>
        (.ok ⟨newPid, sn⟩, { pages := h.pages ++ [p'], lastPageId := newPid })
      | none =>
        (.error (.storage "Failed to insert into new page"),
         { pages := h.pages ++ [Page.new], lastPageId := newPid })

/-- HeapFile::delete (heap.rs:124-146): delete the slot in its page,
with the storage error of heap.rs:141 when the page or the slot is out
of range. -/
def HeapFile.delete (h : HeapFile) (sid : SlotId) : Except EngErr Unit × HeapFile :=
  match h.pages[sid.pageId]? with
  | none => (.error (.storage "could not delete tuple"), h)
  | some p =>
    match p.deleteTuple sid.slotNum with
    | some p' => (.ok (), { h with pages := h.pages.set sid.pageId p' })
    | none => (.error (.storage "could not delete tuple"), h)

/-- HeapFile::update (heap.rs:149-172): update the slot in its page,
with the storage error of heap.rs:167 when the page is missing or
Page::update_tuple fails. -/
def HeapFile.update (h : HeapFile) (sid : SlotId) (t : Tuple) : Except EngErr Unit × HeapFile :=
  match h.pages[sid.pageId]? with
  | none => (.error (.storage "could not update tuple"), h)
  | some p =>
    match p.updateTuple sid.slotNum t.toBytes with
    | some p' => (.ok (), { h with pages := h.pages.set sid.pageId p' })
    | none => (.error (.storage "could not update tuple"), h)

/-- HeapFile::get (heap.rs:175-191): read the slot bytes and decode;
any failure is None. -/
def HeapFile.get (h : HeapFile) (sid : SlotId) : Option Tuple :=
  match h.pages[sid.pageId]? with
  | none => none
  | some p =>
    match p.getTuple sid.slotNum with
    | none => none
    | some bytes => (Tuple.fromBytes bytes).toOption

/-- The live tuples of one page in slot order, as HeapFile::scan reads
them: tombstones and undecodable slots are skipped. -/
def pageScan (pid : Nat) (p : Page) : List (SlotId × Tuple) :=
  (List.range p.slots.length).filterMap fun sn =>
    match p.getTuple sn with
    | none => none
    | some bytes =>
      match Tuple.fromBytes bytes with
      | .ok t => some (⟨pid, sn⟩, t)
      | .error _ => none

/-- HeapFile::scan (heap.rs:194-223): pages in id order, slots in
order, emitting every live decodable (SlotId, Tuple). -/
def HeapFile.scan (h : HeapFile) : List (SlotId × Tuple) :=
  (List.range h.pages.length).flatMap fun pid =>
    match h.pages[pid]? with
    | none => []
    | some p => pageScan pid p

/-- HeapFile::get_page_lsn (heap.rs:232-245): 0 when the page cannot be
fetched. -/
def HeapFile.getPageLsn (h : HeapFile) (pid : Nat) : Nat :=
  match h.pages[pid]? with
  | none => 0
  | some p => p.lsn

/-- HeapFile::set_page_lsn (heap.rs:248-258): a no-op when the page
cannot be fetched. -/
def HeapFile.setPageLsn (h : HeapFile) (pid lsn : Nat) : HeapFile :=
  match h.pages[pid]? with
  | none => h
  | some p => { h with pages := h.pages.set pid (p.setLsn lsn) }

/-- ORDER of storage/btree.rs: a node splits when it exceeds 4 keys. -/
def ORDER : Nat := 4

/-- Strict key order via IndexKey::compare, the PartialOrd/Ord derived
in btree.rs:48-58 (used by the leaf filter of range_scan). -/
def ikLt (a b : IndexKey) : Bool :=
  a.compare b = .lt

/-- slice::binary_search on a list of keys: Sum.inl pos when the probe
at pos compares equal (Rust Ok), Sum.inr pos for the insertion point
(Rust Err).  Implements the standard halving loop of the Rust core
library, probing at (left + right) / 2. -/
def binarySearchGo (ks : List IndexKey) (k : IndexKey) (left right : Nat) :
    Nat ⊕ Nat :=
  if h : left < right then
    let mid := (left + right) / 2
    match (ks.getD mid ⟨[]⟩).compare k with
    | .lt => binarySearchGo ks k (mid + 1) right
    | .gt => binarySearchGo ks k left mid
    | .eq => .inl mid
  else .inr left
termination_by right - left
decreasing_by
  · omega
  · omega

/-- slice::binary_search over the whole key list. -/
def binarySearch (ks : List IndexKey) (k : IndexKey) : Nat ⊕ Nat :=
  binarySearchGo ks k 0 ks.length

/-- Ok-or-insertion-point position, the unwrap_or_else(e => e) idiom of
btree.rs. -/
def bsPos (ks : List IndexKey) (k : IndexKey) : Nat :=
  (binarySearch ks k).elim id id

/-- The BPlusNode enum of storage/btree.rs.  The next field of Leaf is
omitted: every constructor in the source sets it to None and nothing
reads it. -/
inductive BNode
  | leaf (keys : List IndexKey) (vals : List SlotId)
  | internal (keys : List IndexKey) (children : List BNode)

mutual

/-- BPlusTree::insert_recursive (btree.rs:149-205): returns the updated
node and, on overflow, the split-off right sibling with the key to
promote.  Leaves split at len / 2 keeping the left half and promoting
the right half's first key; internals promote keys[mid] and drop it
from both halves' key lists. -/
def insertRecursive (k : IndexKey) (v : SlotId) :
    BNode → BNode × Option (BNode × IndexKey)
  | .leaf keys vals =>
    let pos := bsPos keys k
    let keys := keys.insertIdx pos k
    let vals := vals.insertIdx pos v
    if keys.length > ORDER then
      let mid := keys.length / 2
      let newKeys := keys.drop mid
      let midKey := newKeys.getD 0 ⟨[]⟩
      (.leaf (keys.take mid) (vals.take mid), some (.leaf newKeys (vals.drop mid), midKey))
    else (.leaf keys vals, none)
  | .internal keys children =>
    let pos := bsPos keys k
    let res := insertChild k v children pos
    match res.2 with
    | none => (.internal keys res.1, none)
    | some (newNode, midKey) =>
      let keys := keys.insertIdx pos midKey
      let children := res.1.insertIdx (pos + 1) newNode
      if keys.length > ORDER then
        let mid := keys.length / 2
        let midKey' := keys.getD mid ⟨[]⟩
        (.internal (keys.take mid) (children.take (mid + 1)),
         some (.internal (keys.drop (mid + 1)) (children.drop (mid + 1)), midKey'))
      else (.internal keys children, none)
termination_by n => sizeOf n
decreasing_by
  simp only [BNode.internal.sizeOf_spec]; omega

/-- The children[pos] descent of insert_recursive: rebuild the child
list with the pos-th child replaced by its recursively updated form,
passing the split information up.  children[pos] is in range on every
tree these operations build (children is one longer than keys); on an
out-of-range pos this leaves the list unchanged where the Rust
indexing would panic. -/
def insertChild (k : IndexKey) (v : SlotId) :
    List BNode → Nat → List BNode × Option (BNode × IndexKey)
  | [], _ => ([], none)
  | c :: cs, 0 =>
    let res := insertRecursive k v c
    (res.1 :: cs, res.2)
  | c :: cs, pos + 1 =>
    let res := insertChild k v cs pos
    (c :: res.1, res.2)
termination_by cs _ => sizeOf cs
decreasing_by
  · simp only [List.cons.sizeOf_spec]; omega
  · simp only [List.cons.sizeOf_spec]; omega

end

/-- The BPlusTree struct of storage/btree.rs (the name and buffer-pool
fields play no part in the operations). -/
structure BPlusTree where
  root : Option BNode
  size : Nat

/-- BPlusTree::new. -/
def BPlusTree.new : BPlusTree :=
  { root := none, size := 0 }

/-- BPlusTree::insert (btree.rs:123-147): an empty tree gets a
singleton leaf; a root split creates a new internal root; size always
increments. -/
def BPlusTree.insert (t : BPlusTree) (k : IndexKey) (v : SlotId) : BPlusTree :=
  match t.root with
  | none => { root := some (.leaf [k] [v]), size := t.size + 1 }
  | some r =>
    match insertRecursive k v r with
    | (r', none) => { root := some r', size := t.size + 1 }
    | (r', some (newNode, midKey)) =>
      { root := some (.internal [midKey] [r', newNode]), size := t.size + 1 }

mutual

/-- The descent loop of BPlusTree::search (btree.rs:208-228): on an
internal node an exact match goes right of the equal key (pos + 1),
otherwise to the insertion point.  values[pos] of a leaf is in range on
trees the operations build (parallel arrays); the get? fallback stands
where the Rust indexing would panic. -/
def nodeSearch (k : IndexKey) : BNode → Option SlotId
  | .leaf keys vals =>
    match binarySearch keys k with
    | .inl pos => vals[pos]?
    | .inr _ => none
  | .internal keys children =>
    let pos := match binarySearch keys k with
      | .inl p => p + 1
      | .inr p => p
    searchChild k children pos
termination_by n => sizeOf n
decreasing_by
  simp only [BNode.internal.sizeOf_spec]; omega

/-- The children[pos] descent of search; an out-of-range pos yields
None where the Rust indexing would panic (unreachable on the trees the
operations build). -/
def searchChild (k : IndexKey) : List BNode → Nat → Option SlotId
  | [], _ => none
  | c :: _, 0 => nodeSearch k c
  | _ :: cs, pos + 1 => searchChild k cs pos
termination_by cs _ => sizeOf cs
decreasing_by
  · simp only [List.cons.sizeOf_spec]; omega
  · simp only [List.cons.sizeOf_spec]; omega

end

/-- BPlusTree::search. -/
def BPlusTree.search (t : BPlusTree) (k : IndexKey) : Option SlotId :=
  match t.root with
  | none => none
  | some r => nodeSearch k r

mutual

/-- BPlusTree::delete_recursive (btree.rs:251-268): remove the key from
its leaf (no merging or rebalancing); internals descend right of an
equal key like search. -/
def deleteRecursive (k : IndexKey) : BNode → BNode × Option SlotId
  | .leaf keys vals =>
    match binarySearch keys k with
    | .inl pos => (.leaf (keys.eraseIdx pos) (vals.eraseIdx pos), vals[pos]?)
    | .inr _ => (.leaf keys vals, none)
  | .internal keys children =>
    let pos := match binarySearch keys k with
      | .inl p => p + 1
      | .inr p => p
    let res := deleteChild k children pos
    (.internal keys res.1, res.2)
termination_by n => sizeOf n
decreasing_by
  simp only [BNode.internal.sizeOf_spec]; omega

/-- The children[pos] descent of delete_recursive, rebuilding the child
list with the pos-th child replaced. -/
def deleteChild (k : IndexKey) : List BNode → Nat → List BNode × Option SlotId
  | [], _ => ([], none)
  | c :: cs, 0 =>
    let res := deleteRecursive k c
    (res.1 :: cs, res.2)
  | c :: cs, pos + 1 =>
    let res := deleteChild k cs pos
    (c :: res.1, res.2)
termination_by cs _ => sizeOf cs
decreasing_by
  · simp only [List.cons.sizeOf_spec]; omega
  · simp only [List.cons.sizeOf_spec]; omega

end

/-- BPlusTree::delete (btree.rs:231-249): size decrements only when a
slot was removed.  The Rust method returns Result but never errs. -/
def BPlusTree.delete (t : BPlusTree) (k : IndexKey) : Option SlotId × BPlusTree :=
  match t.root with
  | none => (none, t)
  | some r =>
    let res := deleteRecursive k r
    (res.2, { root := some res.1, size := if res.2.isSome then t.size - 1 else t.size })

mutual

/-- BPlusTree::range_scan_recursive (btree.rs:283-312).  A leaf emits
its in-range entries in order; an internal node visits
children[start_pos ..= end_pos] where both endpoints come from
binary_search's found-or-insertion position of the bounds. -/
def rangeScanRecursive (lo hi : Option IndexKey) : BNode → List (IndexKey × SlotId)
  | .leaf keys vals =>
    (List.range keys.length).filterMap fun i =>
      let key := keys.getD i ⟨[]⟩
      let tooSmall := lo.elim false fun s => ikLt key s
      let tooLarge := hi.elim false fun e => ikLt e key
      if ¬tooSmall ∧ ¬tooLarge then some (key, vals.getD i ⟨0, 0⟩) else none
  | .internal keys children =>
    let startPos := lo.elim 0 fun s => bsPos keys s
    let endPos := hi.elim keys.length fun e => bsPos keys e
    rangeScanChildren lo hi startPos endPos 0 children
termination_by n => sizeOf n
decreasing_by
  simp only [BNode.internal.sizeOf_spec]; omega

/-- The for i in start_pos..=end_pos loop over children of
range_scan_recursive, walking the child list with its index: children
whose index is inside the window are scanned, the rest skipped.
Indices beyond the list end contribute nothing where the Rust indexing
would panic (unreachable on the trees the operations build, where
end_pos < children.len()). -/
def rangeScanChildren (lo hi : Option IndexKey) (startPos endPos : Nat) :
    Nat → List BNode → List (IndexKey × SlotId)
  | _, [] => []
  | i, c :: cs =>
    (if startPos ≤ i ∧ i ≤ endPos then rangeScanRecursive lo hi c else []) ++
      rangeScanChildren lo hi startPos endPos (i + 1) cs
termination_by _ cs => sizeOf cs
decreasing_by
  · simp only [List.cons.sizeOf_spec]; omega
  · simp only [List.cons.sizeOf_spec]; omega

end

/-- BPlusTree::range_scan (btree.rs:271-281): inclusive bounds per its
doc comment, "find all keys in [start, end]". -/
def BPlusTree.rangeScan (t : BPlusTree) (lo hi : Option IndexKey) :
    List (IndexKey × SlotId) :=
  match t.root with
  | none => []
  | some r => rangeScanRecursive lo hi r

/-- BPlusTree::scan_all. -/
def BPlusTree.scanAll (t : BPlusTree) : List (IndexKey × SlotId) :=
  t.rangeScan none none

/-- The Table of storage/table.rs, with the schema reduced to the two
facts Table::insert and Table::update consult: the column count and
each column's nullable flag.  indexes maps an index name to its column
positions and tree, as table.rs keeps them. -/
structure Table where
  schema : List Bool
  heap : HeapFile
  indexes : List (String × (List Nat × BPlusTree))

/-- The index key Table ops build for a tuple: the values at the
index's column positions (missing positions are skipped by the
if-let in table.rs). -/
def keyOf (cols : List Nat) (t : Tuple) : IndexKey :=
  ⟨cols.filterMap fun c => t.values[c]?⟩

/-- Table::insert (table.rs:182-225): column-count check, NOT NULL
check, heap insert, then each index gets (key, slot).  BPlusTree insert
never fails in the source, so its index-failure rollback path is dead
code.  On error the mutated heap state is kept, as in Rust. -/
def Table.insert (tbl : Table) (t : Tuple) : Except EngErr SlotId × Table :=
  if t.values.length ≠ tbl.schema.length then
    (.error (.execution "column count mismatch"), tbl)
  else if (List.range tbl.schema.length).any
      (fun i => ¬tbl.schema.getD i true ∧ t.values.getD i .null = .null) then
    (.error .nullNotAllowed, tbl)
  else
    match tbl.heap.insert t with
    | (.error e, h') => (.error e, { tbl with heap := h' })
    | (.ok sid, h') =>
      let idx' := tbl.indexes.map fun (n, (cols, tree)) =>
        (n, (cols, tree.insert (keyOf cols t) sid))
      (.ok sid, { tbl with heap := h', indexes := idx' })

/-- Table::delete (table.rs:228-249): read the tuple (error "Tuple not
found" when absent), tombstone it in the heap, remove its key from
every index. -/
def Table.delete (tbl : Table) (sid : SlotId) : Except EngErr Unit × Table :=
  match tbl.heap.get sid with
  | none => (.error (.execution "Tuple not found"), tbl)
  | some t =>
    match tbl.heap.delete sid with
    | (.error e, h') => (.error e, { tbl with heap := h' })
    | (.ok _, h') =>
      let idx' := tbl.indexes.map fun (n, (cols, tree)) =>
        (n, (cols, (tree.delete (keyOf cols t)).2))
      (.ok (), { tbl with heap := h', indexes := idx' })

/-- Table::update (table.rs:252-299): column-count check, read the old
tuple, heap update (propagating its failure), then rekey every index
whose key changed. -/
def Table.update (tbl : Table) (sid : SlotId) (t : Tuple) : Except EngErr Unit × Table :=
  if t.values.length ≠ tbl.schema.length then
    (.error (.execution "column count mismatch"), tbl)
  else
    match tbl.heap.get sid with
    | none => (.error (.execution "Tuple not found"), tbl)
    | some old =>
      match tbl.heap.update sid t with
      | (.error e, h') => (.error e, { tbl with heap := h' })
      | (.ok _, h') =>
        let idx' := tbl.indexes.map fun (n, (cols, tree)) =>
          let oldKey := keyOf cols old
          let newKey := keyOf cols t
          if oldKey ≠ newKey then
            (n, (cols, ((tree.delete oldKey).2.insert newKey sid)))
          else (n, (cols, tree))
        (.ok (), { tbl with heap := h', indexes := idx' })

/-- Table::get / Table::get_tuple. -/
def Table.get (tbl : Table) (sid : SlotId) : Option Tuple :=
  tbl.heap.get sid

/-- Table::scan. -/
def Table.scan (tbl : Table) : List (SlotId × Tuple) :=
  tbl.heap.scan

/-- Table::get_page_lsn. -/
def Table.getPageLsn (tbl : Table) (pid : Nat) : Nat :=
  tbl.heap.getPageLsn pid

/-- Table::set_page_lsn. -/
def Table.setPageLsn (tbl : Table) (pid lsn : Nat) : Table :=
  { tbl with heap := tbl.heap.setPageLsn pid lsn }

/-- One lock-table entry of transaction.rs: (exclusive holder, shared
holders). -/
abbrev LockEntry : Type := Option Nat × List Nat

/-- The LockManager lock table (transaction.rs:46-49): table name to
entry.  The HashMap is modelled as an association list keyed by first
occurrence. -/
abbrev LockTable : Type := List (String × LockEntry)

/-- HashMap::get on the lock table. -/
def lockLookup (lt : LockTable) (table : String) : Option LockEntry :=
  (lt.find? fun e => e.1 = table).map Prod.snd

/-- The entry(table).or_insert((None, vec![])) of LockManager::acquire. -/
def lockEntryOf (lt : LockTable) (table : String) : LockEntry :=
  (lockLookup lt table).getD (none, [])

/-- Store back an entry (HashMap entry API mutates the value in place;
an absent key is appended, as or_insert creates it).  The association
list carries at most one entry per key. -/
def lockStore : LockTable → String → LockEntry → LockTable
  | [], table, e => [(table, e)]
  | (n, e0) :: rest, table, e =>
    if n = table then (table, e) :: rest else (n, e0) :: lockStore rest table e

/-- LockMode of transaction.rs. -/
inductive LockMode
  | shared
  | exclusive
deriving DecidableEq

/-- LockManager::acquire (transaction.rs:59-103).  Shared: granted iff
no other transaction holds the exclusive lock (trivially when the
requester does); Exclusive: granted when the requester holds it, the
entry is unlocked, or the requester is the sole shared holder (then the
shared list is cleared and the exclusive holder set).  Every other
state is denied, without blocking. -/
def lockAcquire (lt : LockTable) (table : String) (transId : Nat) (mode : LockMode) :
    Bool × LockTable :=
  let e := lockEntryOf lt table
  let lt := lockStore lt table e
  match mode with
  | .shared =>
    match e.1 with
    | some holder => (holder = transId, lt)
    | none =>
      if transId ∈ e.2 then (true, lt)
      else (true, lockStore lt table (e.1, e.2 ++ [transId]))
  | .exclusive =>
    match e.1 with
    | some holder => (holder = transId, lt)
    | none =>
      if e.2 ≠ [] then
        if e.2 = [transId] then (true, lockStore lt table (some transId, []))
        else (false, lt)
      else (true, lockStore lt table (some transId, []))

/-- LockManager::release_all (transaction.rs:106-114): drop the
transaction from every entry's exclusive and shared holders. -/
def releaseAll (lt : LockTable) (transId : Nat) : LockTable :=
  lt.map fun (n, (ex, sh)) =>
    (n, (if ex = some transId then none else ex, sh.filter (· ≠ transId)))

/-- LogRecordType of storage/wal.rs. -/
inductive LogRecordType
  | begin
  | commit
  | rollback
  | insert
  | update
  | delete
  | abort
deriving DecidableEq

/-- LogRecord of storage/wal.rs. -/
structure LogRecord where
  lsn : Nat
  transId : Nat
  recType : LogRecordType
  tableName : Option String
  slotId : Option SlotId
  beforeImage : Option Tuple
  afterImage : Option Tuple
deriving DecidableEq

/-- The executor's by-name table map during recovery
(ExecutionEngine::tables).  Tables the records name are assumed already
loadable: ensure_table_loaded on a name missing from the catalog is the
error path. -/
structure DBState where
  tables : List (String × Table)

/-- Table lookup in the executor map. -/
def DBState.lookup (st : DBState) (name : String) : Option Table :=
  (st.tables.find? fun e => e.1 = name).map Prod.snd

/-- Replace the value of an existing key of an association list with
at most one entry per key (the HashMap::get_mut mutation; a missing
key leaves the list unchanged, as get_mut would return None). -/
def assocSet {α : Type} : List (String × α) → String → α → List (String × α)
  | [], _, _ => []
  | (n, v0) :: rest, name, v =>
    if n = name then (name, v) :: rest else (n, v0) :: assocSet rest name v

/-- Replace a table in the executor map (HashMap::get_mut mutation). -/
def DBState.setTable (st : DBState) (name : String) (tbl : Table) : DBState :=
  ⟨assocSet st.tables name tbl⟩

/-- Insert-if-absent on a list, the HashSet::insert of the analysis
pass. -/
def setInsert (l : List Nat) (x : Nat) : List Nat :=
  if x ∈ l then l else l ++ [x]

/-- The analysis pass of ExecutionEngine::recover (executor.rs:251-270):
fold the records into (committed, active) transaction-id sets. -/
def analyzeRecords (records : List LogRecord) : List Nat × List Nat :=
  records.foldl
    (fun (acc : List Nat × List Nat) r =>
      match r.recType with
      | .begin => (acc.1, setInsert acc.2 r.transId)
      | .commit => (setInsert acc.1 r.transId, acc.2.filter (· ≠ r.transId))
      | .rollback => (acc.1, acc.2.filter (· ≠ r.transId))
      | .abort => (acc.1, acc.2.filter (· ≠ r.transId))
      | _ => acc)
    ([], [])

/-- One record of the redo pass (executor.rs:273-302): for a committed
transaction's record naming a table and slot, when the page's LSN is
below the record's, reapply (Insert: Table::insert of the after-image;
Update: Table::update with the after-image; Delete: Table::delete) with
the result discarded by .ok(), and stamp the page-LSN with the record's
LSN.  ensure_table_loaded on an unknown table is the error path. -/
def redoApply (tbl : Table) (r : LogRecord) (sid : SlotId) : Table :=
  match r.recType with
  | .insert => match r.afterImage with
    | some a => (tbl.insert a).2
    | none => tbl
  | .update => match r.afterImage with
    | some a => (tbl.update sid a).2
    | none => tbl
  | .delete => (tbl.delete sid).2
  | _ => tbl

def redoStep (committed : List Nat) (st : DBState) (r : LogRecord) :
    Except EngErr DBState :=
  if r.transId ∈ committed then
    match r.tableName, r.slotId with
    | some name, some sid =>
      match st.lookup name with
      | none => .error .tableNotFound
      | some tbl =>
        if tbl.getPageLsn sid.pageId < r.lsn then
          .ok (st.setTable name ((redoApply tbl r sid).setPageLsn sid.pageId r.lsn))
        else .ok st
    | _, _ => .ok st
  else .ok st

/-- One record of the undo pass (executor.rs:308-338): for an active
transaction's record naming a table and slot, when the page's LSN is at
least the record's, apply the inverse (Insert: Table::delete; Update:
Table::update with the before-image; Delete: Table::insert of the
before-image) with the result discarded by .ok(), then stamp the
page-LSN with the record's LSN. -/
def undoApply (tbl : Table) (r : LogRecord) (sid : SlotId) : Table :=
  match r.recType with
  | .insert => (tbl.delete sid).2
  | .update => match r.beforeImage with
    | some b => (tbl.update sid b).2
    | none => tbl
  | .delete => match r.beforeImage with
    | some b => (tbl.insert b).2
    | none => tbl
  | _ => tbl

def undoStep (active : List Nat) (st : DBState) (r : LogRecord) :
    Except EngErr DBState :=
  if r.transId ∈ active then
    match r.tableName, r.slotId with
    | some name, some sid =>
      match st.lookup name with
      | none => .error .tableNotFound
      | some tbl =>
        if tbl.getPageLsn sid.pageId ≥ r.lsn then
          .ok (st.setTable name ((undoApply tbl r sid).setPageLsn sid.pageId r.lsn))
        else .ok st
    | _, _ => .ok st
  else .ok st

/-- ExecutionEngine::recover (executor.rs:241-346) on the parsed log:
analysis, then the redo pass in log order over committed transactions,
then the undo pass in reverse order over transactions with a Begin but
no Commit/Rollback/Abort.  (When no log file exists the source returns
with the state untouched.) -/
def recover (records : List LogRecord) (st : DBState) : Except EngErr DBState := do
  let committed := (analyzeRecords records).1
  let active := (analyzeRecords records).2
  let st ← records.foldlM (redoStep committed) st
  records.reverse.foldlM (undoStep active) st

/-- The engine state execute_insert touches: the table map, the WAL
buffer and LSN counter of the LogManager, and the engine's current
transaction id. -/
structure EngineState where
  tables : List (String × Table)
  walBuffer : List LogRecord
  nextLsn : Nat
  currentTransId : Option Nat

/-- Table lookup in the engine state. -/
def EngineState.lookup (st : EngineState) (name : String) : Option Table :=
  (st.tables.find? fun e => e.1 = name).map Prod.snd

/-- Replace a table in the engine state. -/
def EngineState.setTable (st : EngineState) (name : String) (tbl : Table) : EngineState :=
  { st with tables := assocSet st.tables name tbl }

/-- One iteration of the insertion loop of execute_insert
(executor.rs:600-616): Table::insert, and if a transaction is active,
LogManager::append of an Insert record carrying the slot and the
after-image (grabbing the next LSN) followed by set_page_lsn of the
slot's page with that LSN.  With no active transaction nothing is
logged and no page-LSN is stamped. -/
def insertOneRow (name : String) (st : EngineState) (t : Tuple) :
    Except EngErr SlotId × EngineState :=
  match st.lookup name with
  | none => (.error .tableNotFound, st)
  | some tbl =>
    match tbl.insert t with
    | (.error e, tbl') => (.error e, st.setTable name tbl')
    | (.ok sid, tbl') =>
      match st.currentTransId with
      | some tid =>
        let lsn := st.nextLsn
        let rec0 : LogRecord := ⟨lsn, tid, .insert, some name, some sid, none, some t⟩
        let st' := { st with
          tables := (st.setTable name (tbl'.setPageLsn sid.pageId lsn)).tables,
          walBuffer := st.walBuffer ++ [rec0],
          nextLsn := lsn + 1 }
        (.ok sid, st')
      | none => (.ok sid, st.setTable name tbl')

/-- The insertion loop of execute_insert (executor.rs:599-616) over the
already-evaluated row tuples, counting successful inserts; an insert
error aborts the statement (the ? operator), keeping the state mutated
so far. -/
def insertRowsLoop (name : String) (st : EngineState) :
    List Tuple → Nat → Except EngErr Nat × EngineState
  | [], n => (.ok n, st)
  | t :: ts, n =>
    match insertOneRow name st t with
    | (.error e, st') => (.error e, st')
    | (.ok _, st') => insertRowsLoop name st' ts (n + 1)

/-- The body of execute_insert (executor.rs:549-622) after expression
evaluation: insert every row tuple; the affected-row count of the
QueryResult is the number inserted. -/
def executeInsertRows (name : String) (ts : List Tuple) (st : EngineState) :
    Except EngErr Nat × EngineState :=
  insertRowsLoop name st ts 0

/-- The Literal cases of the AST (sql/ast.rs) reaching
literal_to_value; the i64 of Literal::Integer is an Int (range is the
parser's concern), the f64 of Literal::Float its bit pattern. -/
inductive Literal
  | null
  | boolean (b : Bool)
  | integer (i : Int)
  | float (bits : Nat)
  | string (s : List Nat)
deriving DecidableEq

/-- The Rust cast i as i32 on an i64 value: keep the low 32 bits and
reinterpret as two's complement. -/
def i64AsI32 (i : Int) : Int :=
  let r := i % (2 ^ 32 : Int)
  if r < 2 ^ 31 then r else r - 2 ^ 32

/-- ExecutionEngine::literal_to_value (executor.rs:1182-1190):
Literal::Integer is narrowed with the cast as i32; every other literal
maps to the same-kind Value. -/
def literalToValue : Literal → Value
  | .null => .null
  | .boolean b => .boolean b
  | .integer i => .integer (i64AsI32 i)
  | .float bits => .float bits
  | .string s => .string s

/-- Decidable equality for Except results, used to evaluate the
embedded fallible operations on concrete inputs. -/
instance {ε α : Type} [DecidableEq ε] [DecidableEq α] : DecidableEq (Except ε α) :=
  fun x y =>
    match x, y with
    | .ok a, .ok b =>
      if h : a = b then .isTrue (by rw [h]) else .isFalse (by intro he; cases he; exact h rfl)
    | .error a, .error b =>
      if h : a = b then .isTrue (by rw [h]) else .isFalse (by intro he; cases he; exact h rfl)
    | .ok _, .error _ => .isFalse (by intro h; cases h)
    | .error _, .ok _ => .isFalse (by intro h; cases h)

/-- A single-Integer index key, for concrete test inputs. -/
def ik (i : Int) : IndexKey := ⟨[.integer i]⟩

/-- A single-Integer row, for concrete test inputs. -/
def tInt (n : Int) : Tuple := ⟨[.integer n]⟩

/-- The tree grown by inserting Integer keys 1..5 (slot (0, i) for key
i) into an empty B+ tree, in that order.  With ORDER = 4 the fifth
insert splits the root leaf, giving root keys [3] over leaves [1,2] and
[3,4,5]. -/
def c3Tree : BPlusTree :=
  (((((BPlusTree.new.insert (ik 1) ⟨0, 1⟩).insert (ik 2) ⟨0, 2⟩).insert
    (ik 3) ⟨0, 3⟩).insert (ik 4) ⟨0, 4⟩).insert (ik 5) ⟨0, 5⟩)

/-- A one-column table (nullable, no indexes) over a fresh heap, as
created for a new single-column table. -/
def oneColTable : Table :=
  { schema := [true], heap := HeapFile.new, indexes := [] }

/-- Engine state with table t open and NO active transaction (no BEGIN
was executed): current_trans_id is None. -/
def c5NoTxState : EngineState :=
  { tables := [("t", oneColTable)], walBuffer := [], nextLsn := 3, currentTransId := none }

/-- Engine state with table t open inside transaction 1. -/
def c5TxState : EngineState :=
  { tables := [("t", oneColTable)], walBuffer := [], nextLsn := 3, currentTransId := some 1 }

/-- A 4000-byte-payload row; its encoding is 4009 bytes, nearly a whole
page. -/
def tBig : Tuple := ⟨[.bytes (List.replicate 4000 0)]⟩

/-- A 5-byte-payload row; its encoding is 14 bytes. -/
def tSmall : Tuple := ⟨[.bytes [9, 9, 9, 9, 9]]⟩

/-- The crash image of table t for the C2 scenario: transaction 1
inserted tBig (filling page 0 to free_space_offset 87) and committed;
transaction 2 then updated slot (0,0) in place to tSmall (recorded size
14, free_space_offset unchanged) and its page-LSN stamp 4 was flushed
with the page; the crash came before transaction 2 ended. -/
def c2Page : Page :=
  { lsn := 4, freeOff := 87, slots := [⟨tSmall.toBytes, 14⟩] }

def c2CrashTable : Table :=
  { schema := [true],
    heap := { pages := [c2Page], lastPageId := 0 },
    indexes := [] }

/-- The WAL records read at recovery for the C2 scenario: T1 Begin,
Insert of tBig at (0,0), Commit; T2 Begin, Update of (0,0) with
before-image tBig and after-image tSmall; T2 has no
Commit/Rollback/Abort. -/
def c2r0 : LogRecord := ⟨0, 1, .begin, none, none, none, none⟩

def c2r1 : LogRecord := ⟨1, 1, .insert, some "t", some ⟨0, 0⟩, none, some tBig⟩

def c2r2 : LogRecord := ⟨2, 1, .commit, none, none, none, none⟩

def c2r3 : LogRecord := ⟨3, 2, .begin, none, none, none, none⟩

def c2r4 : LogRecord := ⟨4, 2, .update, some "t", some ⟨0, 0⟩, some tBig, some tSmall⟩

def c2Log : List LogRecord :=
  [c2r0, c2r1, c2r2, c2r3, c2r4]

/-- The WAL of spec scenario 6: T1 Begin, Insert of row (7) at (0,0),
Commit.  LSNs 0,1,2 as the LogManager allocates from 0. -/
def c1Log : List LogRecord :=
  [⟨0, 1, .begin, none, none, none, none⟩,
   ⟨1, 1, .insert, some "t", some ⟨0, 0⟩, none, some (tInt 7)⟩,
   ⟨2, 1, .commit, none, none, none, none⟩]

/-- Crash image for scenario 6 in which the data page never reached
disk after the insert: table t is a fresh single-page heap. -/
def c1StateA : DBState := ⟨[("t", oneColTable)]⟩

/-- Crash image for scenario 6 in which the data page was flushed after
the insert and its page-LSN stamp: row (7) at slot (0,0), page-LSN 1.
(tInt 7 encodes to 9 bytes, so free_space_offset is 4087.) -/
def c1StateB : DBState :=
  ⟨[("t", { schema := [true],
            heap := { pages := [{ lsn := 1, freeOff := 4087, slots := [⟨(tInt 7).toBytes, 9⟩] }],
                      lastPageId := 0 },
            indexes := [] })]⟩

/-- How many scanned rows of table t equal the given tuple, the
observation of spec scenario 6 ("Scan of t contains (7) exactly
once"). -/
def scanCount (st : DBState) (name : String) (t : Tuple) : Nat :=
  match st.lookup name with
  | none => 0
  | some tbl => (tbl.scan.filter fun e => e.2 = t).length

/-- Well-formedness of a heap file: the insertion page exists and every
page header is within bounds (every heap the engine builds satisfies
this; it is what makes Nat truncation in Page.freeSpace faithful). -/
def HeapWf (h : HeapFile) : Prop :=
  h.lastPageId < h.pages.length ∧ ∀ p ∈ h.pages, p.freeOff ≤ PAGE_SIZE

instance (h : HeapFile) : Decidable (HeapWf h) := by
  unfold HeapWf; infer_instance

/-- The committed-record pages named by a log all exist in the state:
true of every real crash image, because the disk manager extends the
table file durably at allocation time, before any slot of the page can
appear in a log record. -/
def CommittedPagesPresent (records : List LogRecord) (st : DBState) : Prop :=
  ∀ r ∈ records, r.transId ∈ (analyzeRecords records).1 →
    ∀ name sid, r.tableName = some name → r.slotId = some sid →
      ∃ tbl, st.lookup name = some tbl ∧ sid.pageId < tbl.heap.pages.length

/-- The bounds under which the byte codec is lossless, stated per
value: machine-integer fields in range (an invariant of the Rust i32 /
i64 types), f64 bit patterns 64-bit wide (invariant of f64), String
payloads valid UTF-8 (invariant of String), and String/Bytes payloads
shorter than 2^32 bytes (what the u32 length cast needs). -/
def WfValue : Value → Prop
  | .null => True
  | .boolean _ => True
  | .integer i => -(2 ^ 31) ≤ i ∧ i < 2 ^ 31
  | .bigint i => -(2 ^ 63) ≤ i ∧ i < 2 ^ 63
  | .float bits => bits < 2 ^ 64
  | .string s => s.length < 2 ^ 32 ∧ validUtf8 s = true
  | .date d => -(2 ^ 31) ≤ d ∧ d < 2 ^ 31
  | .timestamp t => -(2 ^ 63) ≤ t ∧ t < 2 ^ 63
  | .bytes b => b.length < 2 ^ 32

instance : DecidablePred WfValue := by
  intro v; cases v <;> simp only [WfValue] <;> infer_instance

/-- A tuple within the codec's lossless bounds: fewer than 2^32 values
(what the u32 count cast needs), each within WfValue. -/
def WfTuple (t : Tuple) : Prop :=
  t.values.length < 2 ^ 32 ∧ ∀ v ∈ t.values, WfValue v

instance (t : Tuple) : Decidable (WfTuple t) := by
  unfold WfTuple; infer_instance

/-- A round-trip witness tuple covering all nine Value variants,
including an f64 NaN (0x7FF8000000000000) and negative zero
(0x8000000000000000). -/
def c6Witness : Tuple :=
  ⟨[.integer 1, .string [104, 101, 108, 108, 111], .boolean true, .null,
    .float 0x400C000000000000, .bigint (-5), .date 19000,
    .timestamp 1234567890123, .bytes [0, 255], .float 0x7FF8000000000000,
    .float 0x8000000000000000, .integer (-2147483648)]⟩

/-- The bytes readable through a heap slot: page lookup then
Page::get_tuple (how HeapFile::get reads before decoding). -/
def contentAtH (h : HeapFile) (sid : SlotId) : Option (List Nat) :=
  h.pages[sid.pageId]?.bind fun p => p.getTuple sid.slotNum

/-- The bytes readable through a table slot of one engine-state
table. -/
def contentAtE (st : EngineState) (name : String) (sid : SlotId) : Option (List Nat) :=
  (st.lookup name).bind fun tbl => contentAtH tbl.heap sid

/-- A tuple whose encoding (4078 bytes) exceeds the 4068-byte payload
capacity of an empty page: 4096 minus the 24-byte header minus the
4-byte directory entry the insert itself would add. -/
def c9Big : Tuple :=
  ⟨[.bytes (List.replicate 4069 0)]⟩

/-- Heap states of the slot-stability scenario: insert A, B, C into an
empty heap, delete s_B = (0, 1), insert D. -/
def c8h1 : HeapFile := (HeapFile.new.insert (tInt 1)).2

def c8h2 : HeapFile := (c8h1.insert (tInt 2)).2

def c8h3 : HeapFile := (c8h2.insert (tInt 3)).2

def c8h4 : HeapFile := (c8h3.delete ⟨0, 1⟩).2

def c8h5 : HeapFile := (c8h4.insert (tInt 4)).2

/-- The number of heap pages of one table of the state (0 when the
table is absent). -/
def pagesAt (st : DBState) (name : String) : Nat :=
  match st.lookup name with
  | none => 0
  | some tbl => tbl.heap.pages.length

/-- The persisted page-LSN recovery consults for one page of one table
of the state (0 when the table or page is absent, as
HeapFile::get_page_lsn reads it). -/
def lsnAt (st : DBState) (name : String) (pid : Nat) : Nat :=
  match st.lookup name with
  | none => 0
  | some tbl => tbl.getPageLsn pid

theorem flatMap_attach_eq {α β : Type} (l : List α) (f : α → List β) :
    l.attach.flatMap (fun c => f c.1) = l.flatMap f := by
  rw [← List.attach_map_subtype_val l, List.flatMap_map]
  simp [List.attach_map_subtype_val]

theorem lockLookup_store (lt : LockTable) (table : String) (e : LockEntry) :
    lockLookup (lockStore lt table e) table = some e := by
  induction lt with
  | nil => simp [lockStore, lockLookup]
  | cons hd tl ih =>
    obtain ⟨n, e0⟩ := hd
    by_cases h : n = table
    · simp [lockStore, lockLookup, h]
    · simpa [lockStore, lockLookup, h] using ih

theorem lockEntryOf_store (lt : LockTable) (table : String) (e : LockEntry) :
    lockEntryOf (lockStore lt table e) table = e := by
  simp [lockEntryOf, lockLookup_store]

/-- C10: every integer literal an evaluated expression contains is
narrowed by literal_to_value with the cast as i32: the produced value
is always Value::Integer of the unique i32-range representative of the
literal modulo 2^32 (so in-range literals are kept and out-of-range
literals wrap rather than widening to BigInt or erroring), and
concretely 2^31 becomes -2^31 and 2^32 + 5 becomes 5. -/
theorem c10_integer_literals_wrap_as_i32 :
    (∀ i : Int, literalToValue (.integer i) = .integer (i64AsI32 i)) ∧
    (∀ i : Int, i64AsI32 i % 2 ^ 32 = i % 2 ^ 32 ∧
      -(2 ^ 31) ≤ i64AsI32 i ∧ i64AsI32 i < 2 ^ 31) ∧
    (∀ i : Int, -(2 ^ 31) ≤ i → i < 2 ^ 31 → i64AsI32 i = i) ∧
    literalToValue (.integer (2 ^ 31)) = .integer (-(2 ^ 31)) ∧
    literalToValue (.integer (2 ^ 32 + 5)) = .integer 5 := by
  refine ⟨fun i => rfl, fun i => ?_, fun i h1 h2 => ?_, by decide, by decide⟩
  · simp only [i64AsI32]
    split <;> omega
  · simp only [i64AsI32]
    split <;> omega

/-- C4: from_bytes is not total on malformed input.  The unknown-tag,
non-UTF-8, short-header and missing-tag truncations do return clean
malformed-tuple errors, but a buffer truncated inside a declared
payload (a Boolean payload, an Integer payload, a declared Bytes
length) is read through an unchecked index or slice, which panics in
Rust instead of returning an error. -/
theorem c4_from_bytes_truncated_payload_is_oob :
    Tuple.fromBytes [1, 0, 0, 0, 1] = .error .oob ∧
    Tuple.fromBytes [1, 0, 0, 0, 2] = .error .oob ∧
    Tuple.fromBytes [1, 0, 0, 0, 8, 3, 0, 0, 0, 97] = .error .oob ∧
    Tuple.fromBytes [1, 0, 0, 0, 99] = .error (.unknownTag 99) ∧
    Tuple.fromBytes [1, 0, 0, 0] = .error .bufferOverflow ∧
    Tuple.fromBytes [1, 0, 0] = .error .headerTooShort ∧
    Tuple.fromBytes [1, 0, 0, 0, 5, 1, 0, 0, 0, 255] = .error .invalidUtf8 := by
  decide

/-- C7: the lock table implements exactly the claimed two-phase-locking
decision table.  A Shared request is granted iff no other transaction
holds the exclusive lock; an Exclusive request is granted iff the
requester holds it, the entry is unlocked, or the requester is the sole
shared holder, the upgrade case clearing the shared list and setting
the exclusive holder; release_all removes the transaction from every
entry without touching other holders; and in the two-transaction
scenario T1 taking Exclusive on u denies both of T2's requests until
T1's locks are released (as commit does), after which T2's Exclusive
succeeds.  A denied request returns false at once: lockAcquire is a
total function, there is no queue. -/
theorem c7_lock_acquire_follows_2pl_table :
    (∀ (lt : LockTable) (table : String) (T : Nat),
      (lockAcquire lt table T .shared).1 = true ↔
        (lockEntryOf lt table).1 = none ∨ (lockEntryOf lt table).1 = some T) ∧
    (∀ (lt : LockTable) (table : String) (T : Nat),
      (lockAcquire lt table T .exclusive).1 = true ↔
        (lockEntryOf lt table).1 = some T ∨
        ((lockEntryOf lt table).1 = none ∧
          ((lockEntryOf lt table).2 = [] ∨ (lockEntryOf lt table).2 = [T]))) ∧
    (∀ (lt : LockTable) (table : String) (T : Nat),
      (lockEntryOf lt table).1 = none → (lockEntryOf lt table).2 = [T] →
        lockEntryOf (lockAcquire lt table T .exclusive).2 table = (some T, [])) ∧
    (∀ (lt : LockTable) (T : Nat) (e : String × LockEntry),
      e ∈ releaseAll lt T → e.2.1 ≠ some T ∧ T ∉ e.2.2) ∧
    ((lockAcquire [] "u" 1 .exclusive).1 = true ∧
      (lockAcquire (lockAcquire [] "u" 1 .exclusive).2 "u" 2 .exclusive).1 = false ∧
      (lockAcquire (lockAcquire [] "u" 1 .exclusive).2 "u" 2 .shared).1 = false ∧
      (lockAcquire (releaseAll (lockAcquire [] "u" 1 .exclusive).2 1) "u" 2 .exclusive).1
        = true) := by
  refine ⟨fun lt table T => ?_, fun lt table T => ?_, fun lt table T h1 h2 => ?_,
    fun lt T e he => ?_, by decide⟩
  · simp only [lockAcquire]
    rcases h : (lockEntryOf lt table).1 with _ | holder
    · simp only [h]
      constructor
      · intro _
        simp [h]
      · intro _
        split <;> rfl
    · simp only [h]
      constructor
      · intro hg
        right
        have : holder = T := by simpa [decide_eq_true_eq] using hg
        simp [this]
      · rintro (hc | hc)
        · cases hc
        · have hTh : T = holder := by simpa using hc.symm
          simp [hTh]
  · simp only [lockAcquire]
    rcases h : (lockEntryOf lt table).1 with _ | holder
    · simp only [h]
      rcases hs : (lockEntryOf lt table).2 with _ | ⟨x, xs⟩
      · simp
      · by_cases hx : x = T ∧ xs = []
        · simp [hx.1, hx.2]
        · have hne : ¬(x :: xs = [T]) := by
            intro hco
            injection hco with hco1 hco2
            exact hx ⟨hco1, hco2⟩
          simp [hne]
    · simp only [h]
      constructor
      · intro hg
        left
        have : holder = T := by simpa [decide_eq_true_eq] using hg
        simp [this]
      · rintro (hc | hc)
        · have hTh : T = holder := by simpa using hc.symm
          simp [hTh]
        · exact absurd hc.1 (by simp)
  · simp only [lockAcquire, h1, h2]
    norm_num
    exact lockEntryOf_store _ _ _
  · simp only [releaseAll, List.mem_map] at he
    obtain ⟨⟨n, ex, sh⟩, _, rfl⟩ := he
    refine ⟨?_, by simp⟩
    by_cases hx : ex = some T <;> simp [hx]

/-- C3 (code_bug): range_scan is NOT inclusive at the upper end on
every tree.  On the tree grown by inserting keys 1..5 (whose fifth
insert makes key 3 the root separator), range_scan(None, 3) returns
only keys 1 and 2 — the entry with key 3, equal to the provided upper
bound, is omitted, and range_scan(3, 3) is empty — although the entry
is in the tree: scan_all lists it and search finds it.  The cause: the
internal-node walk ends at children[end_pos] with end_pos the
binary_search position of the bound, but entries equal to a separator
key live in the child one to its right. -/
theorem c3_range_scan_omits_upper_bound_at_separator :
    c3Tree.root = some (.internal [ik 3]
      [.leaf [ik 1, ik 2] [⟨0, 1⟩, ⟨0, 2⟩], .leaf [ik 3, ik 4, ik 5] [⟨0, 3⟩, ⟨0, 4⟩, ⟨0, 5⟩]]) ∧
    c3Tree.rangeScan none (some (ik 3)) = [(ik 1, ⟨0, 1⟩), (ik 2, ⟨0, 2⟩)] ∧
    c3Tree.rangeScan (some (ik 3)) (some (ik 3)) = [] ∧
    c3Tree.scanAll = [(ik 1, ⟨0, 1⟩), (ik 2, ⟨0, 2⟩), (ik 3, ⟨0, 3⟩),
      (ik 4, ⟨0, 4⟩), (ik 5, ⟨0, 5⟩)] ∧
    c3Tree.search (ik 3) = some ⟨0, 3⟩ := by
  have htree : c3Tree = ⟨some (.internal [ik 3]
      [.leaf [ik 1, ik 2] [⟨0, 1⟩, ⟨0, 2⟩],
       .leaf [ik 3, ik 4, ik 5] [⟨0, 3⟩, ⟨0, 4⟩, ⟨0, 5⟩]]), 5⟩ := by
    have h1 : BPlusTree.new.insert (ik 1) ⟨0, 1⟩ = ⟨some (.leaf [ik 1] [⟨0, 1⟩]), 1⟩ := by
      simp [BPlusTree.insert, BPlusTree.new]
    have h2 : (BPlusTree.mk (some (.leaf [ik 1] [⟨0, 1⟩])) 1).insert (ik 2) ⟨0, 2⟩ =
        ⟨some (.leaf [ik 1, ik 2] [⟨0, 1⟩, ⟨0, 2⟩]), 2⟩ := by
      simp [BPlusTree.insert, insertRecursive, insertChild, bsPos, binarySearch,
        binarySearchGo, IndexKey.compare, ikAux, Value.compare, ORDER, ik, List.insertIdx]
    have h3 : (BPlusTree.mk (some (.leaf [ik 1, ik 2] [⟨0, 1⟩, ⟨0, 2⟩])) 2).insert
        (ik 3) ⟨0, 3⟩ = ⟨some (.leaf [ik 1, ik 2, ik 3] [⟨0, 1⟩, ⟨0, 2⟩, ⟨0, 3⟩]), 3⟩ := by
      simp [BPlusTree.insert, insertRecursive, insertChild, bsPos, binarySearch,
        binarySearchGo, IndexKey.compare, ikAux, Value.compare, ORDER, ik, List.insertIdx]
    have h4 : (BPlusTree.mk (some (.leaf [ik 1, ik 2, ik 3] [⟨0, 1⟩, ⟨0, 2⟩, ⟨0, 3⟩])) 3).insert
        (ik 4) ⟨0, 4⟩ =
        ⟨some (.leaf [ik 1, ik 2, ik 3, ik 4] [⟨0, 1⟩, ⟨0, 2⟩, ⟨0, 3⟩, ⟨0, 4⟩]), 4⟩ := by
      simp [BPlusTree.insert, insertRecursive, insertChild, bsPos, binarySearch,
        binarySearchGo, IndexKey.compare, ikAux, Value.compare, ORDER, ik, List.insertIdx]
    have h5 : (BPlusTree.mk
        (some (.leaf [ik 1, ik 2, ik 3, ik 4] [⟨0, 1⟩, ⟨0, 2⟩, ⟨0, 3⟩, ⟨0, 4⟩])) 4).insert
        (ik 5) ⟨0, 5⟩ = ⟨some (.internal [ik 3]
          [.leaf [ik 1, ik 2] [⟨0, 1⟩, ⟨0, 2⟩],
           .leaf [ik 3, ik 4, ik 5] [⟨0, 3⟩, ⟨0, 4⟩, ⟨0, 5⟩]]), 5⟩ := by
      simp [BPlusTree.insert, insertRecursive, insertChild, bsPos, binarySearch,
        binarySearchGo, IndexKey.compare, ikAux, Value.compare, ORDER, ik, List.insertIdx]
    rw [c3Tree, h1, h2, h3, h4, h5]
  have hb1 : binarySearchGo [ik 3] (ik 3) 0 1 = .inl 0 := by
    simp [binarySearchGo, IndexKey.compare, ikAux, Value.compare, ik]
    decide
  have hb3a : binarySearchGo [ik 3, ik 4, ik 5] (ik 3) 0 1 = .inl 0 := by
    simp [binarySearchGo, IndexKey.compare, ikAux, Value.compare, ik]
    decide
  have hb3 : binarySearchGo [ik 3, ik 4, ik 5] (ik 3) 0 3 = .inl 0 := by
    simp [binarySearchGo, IndexKey.compare, ikAux, Value.compare, ik, hb3a]
    decide
  refine ⟨by rw [htree], ?_, ?_, ?_, ?_⟩
  · rw [htree]
    simp only [BPlusTree.rangeScan, rangeScanRecursive, rangeScanChildren, bsPos,
      binarySearch, Option.elim, List.length_cons, List.length_nil, Nat.zero_add,
      Nat.add_zero, Nat.reduceAdd, hb1]
    decide
  · rw [htree]
    simp only [BPlusTree.rangeScan, rangeScanRecursive, rangeScanChildren, bsPos,
      binarySearch, Option.elim, List.length_cons, List.length_nil, Nat.zero_add,
      Nat.add_zero, Nat.reduceAdd, hb1]
    decide
  · rw [htree]
    simp only [BPlusTree.scanAll, BPlusTree.rangeScan, rangeScanRecursive,
      rangeScanChildren, bsPos, binarySearch, Option.elim, List.length_cons,
      List.length_nil, Nat.zero_add, Nat.add_zero, Nat.reduceAdd]
    decide
  · rw [htree]
    simp only [BPlusTree.search, nodeSearch, searchChild, binarySearch,
      List.length_cons, List.length_nil, Nat.zero_add, Nat.add_zero, Nat.reduceAdd,
      hb1, hb3]
    rfl

theorem natToLe_length (w n : Nat) : (natToLe w n).length = w := by
  induction w generalizing n with
  | zero => rfl
  | succ w ih => simp [natToLe, ih]

theorem toBytes_length_pos (t : Tuple) : 4 ≤ t.toBytes.length := by
  simp [Tuple.toBytes, natToLe_length]

theorem getPageLsn_setPageLsn_self (h : HeapFile) (pid lsn : Nat)
    (hex : pid < h.pages.length) : (h.setPageLsn pid lsn).getPageLsn pid = lsn := by
  rcases hp : h.pages[pid]? with _ | p
  · rw [List.getElem?_eq_none_iff] at hp
    omega
  · simp [HeapFile.setPageLsn, HeapFile.getPageLsn, hp, List.getElem?_set_self, Page.setLsn, hex]

theorem contentAtH_setPageLsn (h : HeapFile) (pid lsn : Nat) (sid : SlotId) :
    contentAtH (h.setPageLsn pid lsn) sid = contentAtH h sid := by
  rcases hp : h.pages[pid]? with _ | p
  · simp [HeapFile.setPageLsn, hp]
  · have hex : pid < h.pages.length := by
      by_contra hcon
      rw [List.getElem?_eq_none_iff.2 (by omega)] at hp
      cases hp
    simp only [HeapFile.setPageLsn, hp, contentAtH]
    by_cases he : sid.pageId = pid
    · subst he
      simp [List.getElem?_set_self, hp, Page.setLsn, Page.getTuple, hex]
    · simp [contentAtH, List.getElem?_set_ne (fun hco => he hco.symm)]

theorem setPageLsn_pages_length (h : HeapFile) (pid lsn : Nat) :
    (h.setPageLsn pid lsn).pages.length = h.pages.length := by
  rcases hp : h.pages[pid]? with _ | p <;> simp [HeapFile.setPageLsn, hp]

theorem pageInsertTuple_getTuple (p : Page) (bs : List Nat) (p' : Page) (sn : Nat)
    (hbs : bs.length ≠ 0) (hins : p.insertTuple bs = some (p', sn)) :
    p'.getTuple sn = some bs ∧ sn = p.slots.length ∧
    p'.slots.length = p.slots.length + 1 ∧ p'.lsn = p.lsn ∧
    (∀ m b, p.getTuple m = some b → p'.getTuple m = some b) := by
  simp only [Page.insertTuple] at hins
  split at hins
  · cases hins
  · injection hins with h1
    injection h1 with hp hsn
    subst hp
    subst hsn
    refine ⟨?_, rfl, by simp, rfl, ?_⟩
    · simp [Page.getTuple, List.getD_eq_getElem?_getD, List.getElem?_append_right, hbs]
    · intro m b hmb
      simp only [Page.getTuple] at hmb ⊢
      split at hmb
      · cases hmb
      · have hmlt : m < p.slots.length := by omega
        have hlen : ¬((p.slots ++ [(⟨bs, bs.length⟩ : Slot)]).length ≤ m) := by
          simp only [List.length_append, List.length_cons, List.length_nil]
          omega
        rw [if_neg hlen]
        rwa [List.getD_append _ _ _ _ hmlt]

theorem heapInsert_ok (h : HeapFile) (t : Tuple) (sid : SlotId) (h' : HeapFile)
    (hok : h.insert t = (.ok sid, h')) :
    sid.pageId < h'.pages.length ∧
    contentAtH h' sid = some t.toBytes ∧
    (∀ sid0 bs, contentAtH h sid0 = some bs → contentAtH h' sid0 = some bs) := by
  have hbs : (t.toBytes).length ≠ 0 := by
    have := toBytes_length_pos t
    omega
  simp only [HeapFile.insert] at hok
  split at hok
  · simp at hok
  · rename_i p hp
    have hlp : h.lastPageId < h.pages.length := by
      by_contra hcon
      rw [List.getElem?_eq_none_iff.2 (by omega)] at hp
      cases hp
    split at hok
    · rename_i pr p' sn hi
      injection hok with h1 h2
      injection h1 with h1
      subst h1
      subst h2
      obtain ⟨hg, _, _, _, hother⟩ := pageInsertTuple_getTuple _ _ _ _ hbs hi
      refine ⟨by simpa using hlp, ?_, ?_⟩
      · simp [contentAtH, List.getElem?_set_self hlp, hg]
      · intro sid0 bs hc
        simp only [contentAtH] at hc ⊢
        by_cases he : sid0.pageId = h.lastPageId
        · rw [he] at hc ⊢
          rw [hp] at hc
          simp only [List.getElem?_set_self hlp, Option.some_bind]
          simp only [Option.some_bind] at hc
          exact hother _ _ hc
        · rw [List.getElem?_set_ne (fun hco => he hco.symm)]
          exact hc
    · rename_i hi
      split at hok
      · rename_i pr p2 sn2 hi2
        injection hok with h1 h2
        injection h1 with h1
        subst h1
        subst h2
        obtain ⟨hg, hs, _, _, _⟩ := pageInsertTuple_getTuple _ _ _ _ hbs hi2
        have hsn2 : sn2 = 0 := by simpa [Page.new] using hs
        subst hsn2
        refine ⟨by simp, ?_, ?_⟩
        · simp only [contentAtH]
          rw [List.getElem?_append_right (by omega)]
          simpa using hg
        · intro sid0 bs hc
          simp only [contentAtH] at hc ⊢
          rcases hq : h.pages[sid0.pageId]? with _ | q
          · rw [hq] at hc
            cases hc
          · have hlt : sid0.pageId < h.pages.length := by
              by_contra hcon
              rw [List.getElem?_eq_none_iff.2 (by omega)] at hq
              cases hq
            rw [hq] at hc
            rw [List.getElem?_append_left hlt, hq]
            exact hc
      · simp at hok

theorem assocSet_find_self {α : Type} (l : List (String × α)) (name : String) (v0 v : α)
    (h : (l.find? fun e => e.1 = name).map Prod.snd = some v0) :
    ((assocSet l name v).find? fun e => e.1 = name) = some (name, v) := by
  induction l with
  | nil => simp [List.find?] at h
  | cons hd tl ih =>
    obtain ⟨n, x⟩ := hd
    by_cases hn : n = name
    · subst hn
      simp [assocSet, List.find?]
    · simp only [assocSet, if_neg hn]
      rw [List.find?_cons_of_neg _ (by simpa using hn)]
      rw [List.find?_cons_of_neg _ (by simpa using hn)] at h
      exact ih h

theorem tableInsert_ok (tbl : Table) (t : Tuple) (sid : SlotId) (tbl' : Table)
    (hok : tbl.insert t = (.ok sid, tbl')) :
    tbl'.schema = tbl.schema ∧
    sid.pageId < tbl'.heap.pages.length ∧
    contentAtH tbl'.heap sid = some t.toBytes ∧
    (∀ sid0 bs, contentAtH tbl.heap sid0 = some bs → contentAtH tbl'.heap sid0 = some bs) := by
  simp only [Table.insert] at hok
  split at hok
  · simp at hok
  · split at hok
    · simp at hok
    · split at hok
      · simp at hok
      · rename_i pr sid1 h1 hrun
        injection hok with h1 h2
        injection h1 with h1
        subst h1
        subst h2
        obtain ⟨ha, hb, hc⟩ := heapInsert_ok _ _ _ _ hrun
        exact ⟨rfl, ha, hb, hc⟩

theorem lookup_setTable_self (st : EngineState) (name : String) (tbl0 tblN : Table)
    (hl : st.lookup name = some tbl0) : (st.setTable name tblN).lookup name = some tblN := by
  simp only [EngineState.lookup, EngineState.setTable] at hl ⊢
  rw [assocSet_find_self _ _ tbl0 _ hl]
  rfl

theorem insertOneRow_ok_spec (name : String) (tid : Nat) (st : EngineState) (t : Tuple)
    (sid : SlotId) (st2 : EngineState)
    (htid : st.currentTransId = some tid)
    (hok : insertOneRow name st t = (.ok sid, st2)) :
    st2.currentTransId = some tid ∧
    st2.nextLsn = st.nextLsn + 1 ∧
    st2.walBuffer = st.walBuffer ++
      [⟨st.nextLsn, tid, .insert, some name, some sid, none, some t⟩] ∧
    ((st2.lookup name).map fun tbl => tbl.getPageLsn sid.pageId) = some st.nextLsn ∧
    contentAtE st2 name sid = some t.toBytes ∧
    (∀ sid0 bs, contentAtE st name sid0 = some bs → contentAtE st2 name sid0 = some bs) := by
  simp only [insertOneRow] at hok
  split at hok
  · simp at hok
  · rename_i tbl hl
    split at hok
    · simp at hok
    · rename_i pr sid1 tbl' hrun
      rw [htid] at hok
      simp only [] at hok
      injection hok with h1 h2
      injection h1 with h1
      subst h1
      subst h2
      obtain ⟨hsch, hex, hcont, hframe⟩ := tableInsert_ok _ _ _ _ hrun
      have hfind : ∀ tblN : Table,
          ((assocSet st.tables name tblN).find? fun e => e.1 = name) = some (name, tblN) :=
        fun tblN => assocSet_find_self _ _ tbl _ (by simpa [EngineState.lookup] using hl)
      refine ⟨rfl, rfl, rfl, ?_, ?_, ?_⟩
      · simp [EngineState.lookup, EngineState.setTable, hfind, Table.setPageLsn,
          Table.getPageLsn]
        exact getPageLsn_setPageLsn_self _ _ _ hex
      · simp [contentAtE, EngineState.lookup, EngineState.setTable, hfind,
          Table.setPageLsn, contentAtH_setPageLsn]
        exact hcont
      · intro sid0 bs hb
        simp only [contentAtE] at hb
        rw [hl] at hb
        simp only [Option.some_bind] at hb
        simp [contentAtE, EngineState.lookup, EngineState.setTable, hfind,
          Table.setPageLsn, contentAtH_setPageLsn]
        exact hframe _ _ hb

theorem insertRowsLoop_spec (name : String) (tid : Nat) :
    ∀ (ts : List Tuple) (st : EngineState) (n m : Nat) (st' : EngineState),
    st.currentTransId = some tid →
    insertRowsLoop name st ts n = (.ok m, st') →
    m = n + ts.length ∧
    st'.currentTransId = some tid ∧
    st'.nextLsn = st.nextLsn + ts.length ∧
    (∃ sids : List SlotId, sids.length = ts.length ∧
      st'.walBuffer = st.walBuffer ++ ((List.range ts.length).map fun i =>
        ⟨st.nextLsn + i, tid, .insert, some name, sids[i]?, none, ts[i]?⟩) ∧
      ∀ i, i < ts.length →
        contentAtE st' name (sids.getD i ⟨0, 0⟩) = (ts[i]?).map Tuple.toBytes) ∧
    (∀ sid0 bs, contentAtE st name sid0 = some bs → contentAtE st' name sid0 = some bs) := by
  intro ts
  induction ts with
  | nil =>
    intro st n m st' htid hok
    simp only [insertRowsLoop] at hok
    injection hok with h1 h2
    injection h1 with h1
    subst h1
    subst h2
    refine ⟨by simp, htid, by simp, ⟨[], by simp, by simp, by simp⟩, fun _ _ h => h⟩
  | cons t ts ih =>
    intro st n m st' htid hok
    simp only [insertRowsLoop] at hok
    split at hok
    · simp at hok
    · rename_i pr sid st1 hstep
      obtain ⟨htid1, hlsn1, hwal1, _, hcont1, hframe1⟩ :=
        insertOneRow_ok_spec name tid st t sid st1 htid hstep
      obtain ⟨hm, htid', hlsn', ⟨sids, hlen, hwal, hconts⟩, hframe⟩ :=
        ih st1 (n + 1) m st' htid1 hok
      refine ⟨?_, htid', ?_, ⟨sid :: sids, by simp [hlen], ?_, ?_⟩,
        fun sid0 bs hb => hframe _ _ (hframe1 _ _ hb)⟩
      · simp only [List.length_cons]
        omega
      · rw [hlsn', hlsn1]
        simp only [List.length_cons]
        omega
      · rw [hwal, hwal1]
        rw [List.append_assoc]
        congr 1
        simp only [List.length_cons]
        rw [List.range_succ_eq_map]
        simp only [List.map_cons, List.map_map, List.singleton_append]
        congr 1
        · simp
        · apply List.map_congr_left
          intro i hi
          simp only [Function.comp_apply, Nat.succ_eq_add_one, List.getElem?_cons_succ, hlsn1]
          congr 1
          omega
      · intro i hi
        cases i with
        | zero =>
          simp only [List.getD_cons_zero, List.getElem?_cons_zero, Option.map_some]
          exact hframe _ _ hcont1
        | succ j =>
          simp only [List.getD_cons_succ, List.getElem?_cons_succ]
          exact hconts j (by simpa using hi)

/-- C5 (counterexample): an Insert plan executed with no open
transaction (current_trans_id = None) inserts the row and reports one
affected row, but appends NO WAL record and stamps no page-LSN (the
page keeps LSN 0) — so the claim's unconditional "a WAL Insert record
is appended and the page-LSN set" is false as stated. -/
theorem c5_insert_without_transaction_logs_nothing :
    (executeInsertRows "t" [tInt 7] c5NoTxState).1 = .ok 1 ∧
    contentAtE (executeInsertRows "t" [tInt 7] c5NoTxState).2 "t" ⟨0, 0⟩ =
      some (tInt 7).toBytes ∧
    (executeInsertRows "t" [tInt 7] c5NoTxState).2.walBuffer = [] ∧
    (((executeInsertRows "t" [tInt 7] c5NoTxState).2.lookup "t").map
      fun tbl => tbl.getPageLsn 0) = some 0 := by
  decide

/-- C5 (amended): when a transaction is active, every executed Insert
plan inserts each row into the heap, appends one WAL Insert record per
row carrying the after-image (equal to the inserted tuple) and the
row's SlotId with consecutive fresh LSNs, stamps the row's page with
that record's LSN, and returns the number of rows inserted as the
affected count; with no active transaction the rows are still inserted
and counted but nothing is logged.  Conjunct one is the per-row step,
conjunct two the whole statement, conjunct three a concrete run. -/
theorem c5_insert_appends_wal_under_transaction :
    (∀ (name : String) (tid : Nat) (st : EngineState) (t : Tuple) (sid : SlotId)
      (st2 : EngineState), st.currentTransId = some tid →
      insertOneRow name st t = (.ok sid, st2) →
      st2.walBuffer = st.walBuffer ++
        [⟨st.nextLsn, tid, .insert, some name, some sid, none, some t⟩] ∧
      ((st2.lookup name).map fun tbl => tbl.getPageLsn sid.pageId) = some st.nextLsn ∧
      contentAtE st2 name sid = some t.toBytes) ∧
    (∀ (name : String) (tid : Nat) (ts : List Tuple) (st : EngineState) (m : Nat)
      (st' : EngineState), st.currentTransId = some tid →
      executeInsertRows name ts st = (.ok m, st') →
      m = ts.length ∧
      ∃ sids : List SlotId, sids.length = ts.length ∧
        st'.walBuffer = st.walBuffer ++ ((List.range ts.length).map fun i =>
          ⟨st.nextLsn + i, tid, .insert, some name, sids[i]?, none, ts[i]?⟩) ∧
        ∀ i, i < ts.length →
          contentAtE st' name (sids.getD i ⟨0, 0⟩) = (ts[i]?).map Tuple.toBytes) ∧
    ((executeInsertRows "t" [tInt 7] c5TxState).1 = .ok 1 ∧
      (executeInsertRows "t" [tInt 7] c5TxState).2.walBuffer =
        [⟨3, 1, .insert, some "t", some ⟨0, 0⟩, none, some (tInt 7)⟩] ∧
      (((executeInsertRows "t" [tInt 7] c5TxState).2.lookup "t").map
        fun tbl => tbl.getPageLsn 0) = some 3) := by
  refine ⟨?_, ?_, by decide⟩
  · intro name tid st t sid st2 htid hok
    obtain ⟨_, _, hwal, hpl, hcont, _⟩ := insertOneRow_ok_spec name tid st t sid st2 htid hok
    exact ⟨hwal, hpl, hcont⟩
  · intro name tid ts st m st' htid hok
    obtain ⟨hm, _, _, hex, _⟩ :=
      insertRowsLoop_spec name tid ts st 0 m st' htid hok
    exact ⟨by omega, hex⟩

theorem pageScan_new (pid : Nat) : pageScan pid Page.new = [] := by
  simp [pageScan, Page.new]

theorem scan_append_empty_page (h : HeapFile) (k : Nat) :
    HeapFile.scan { pages := h.pages ++ [Page.new], lastPageId := k } = h.scan := by
  unfold HeapFile.scan
  simp only [List.length_append, List.length_cons, List.length_nil, Nat.zero_add]
  rw [List.range_succ, List.flatMap_append]
  have h2 : (h.pages ++ [Page.new])[h.pages.length]? = some Page.new := by
    rw [List.getElem?_append_right (le_refl _)]
    simp
  have h3 : ([h.pages.length].flatMap fun pid =>
      match (h.pages ++ [Page.new])[pid]? with
      | none => []
      | some p => pageScan pid p) = ([] : List (SlotId × Tuple)) := by
    simp only [List.flatMap_cons, List.flatMap_nil, h2, List.append_nil]
    exact pageScan_new _
  rw [h3, List.append_nil]
  apply List.flatMap_congr
  intro pid hpid
  rw [List.getElem?_append_left (List.mem_range.mp hpid)]

theorem get_append_empty_page (h : HeapFile) (k : Nat) (sid : SlotId) :
    HeapFile.get { pages := h.pages ++ [Page.new], lastPageId := k } sid = h.get sid := by
  unfold HeapFile.get
  rcases Nat.lt_trichotomy sid.pageId h.pages.length with hlt | heq | hgt
  · rw [List.getElem?_append_left hlt]
  · rw [heq, List.getElem?_append_right (le_refl _)]
    simp only [Nat.sub_self, List.getElem?_cons_zero]
    rw [List.getElem?_eq_none_iff.mpr (le_refl _)]
    simp [Page.getTuple, Page.new]
  · rw [List.getElem?_eq_none_iff.mpr (by simp; omega),
      List.getElem?_eq_none_iff.mpr (by omega)]

/-- C9: a tuple whose encoding exceeds the 4068-byte payload capacity
of an empty page (4096 minus the 24-byte header minus the 4 directory
bytes of the slot itself) is rejected by the current page, a fresh
empty page is allocated, the insert into it fails too, and
HeapFile::insert returns the storage error — the tuple is stored
nowhere (scan and get are unchanged), but the fresh page stays in the
file and becomes the last page. -/
theorem c9_oversized_tuple_insert_fails_but_page_remains
    (h : HeapFile) (t : Tuple) (hwf : HeapWf h) (hbig : 4068 < t.toBytes.length) :
    h.insert t = (.error (.storage "Failed to insert into new page"),
      { pages := h.pages ++ [Page.new], lastPageId := h.pages.length }) ∧
    (h.insert t).2.scan = h.scan ∧
    (∀ sid, (h.insert t).2.get sid = h.get sid) := by
  obtain ⟨hlast, hoff⟩ := hwf
  obtain ⟨p, hp⟩ : ∃ p, h.pages[h.lastPageId]? = some p :=
    ⟨_, List.getElem?_eq_getElem hlast⟩
  have hpmem : p ∈ h.pages := List.getElem?_mem hp
  have hpoff : p.freeOff ≤ PAGE_SIZE := hoff p hpmem
  have hrej : p.insertTuple t.toBytes = none := by
    unfold Page.insertTuple Page.freeSpace
    rw [if_pos]
    simp only [PAGE_SIZE, PAGE_HEADER_SIZE] at hpoff ⊢
    omega
  have hrej2 : Page.new.insertTuple t.toBytes = none := by
    unfold Page.insertTuple Page.freeSpace Page.new
    rw [if_pos]
    simp only [PAGE_SIZE, PAGE_HEADER_SIZE, List.length_nil]
    omega
  have hins : h.insert t = (.error (.storage "Failed to insert into new page"),
      { pages := h.pages ++ [Page.new], lastPageId := h.pages.length }) := by
    unfold HeapFile.insert
    rw [hp]
    simp only [hrej, hrej2]
  refine ⟨hins, ?_, ?_⟩
  · rw [hins]
    exact scan_append_empty_page h _
  · intro sid
    rw [hins]
    exact get_append_empty_page h _ sid

/-- C9 witness: a one-column Bytes tuple of 4069 payload bytes encodes
to 4078 bytes and is rejected as the theorem states, starting from a
fresh single-page heap. -/
theorem c9_oversized_tuple_witness :
    HeapWf HeapFile.new ∧ 4068 < c9Big.toBytes.length ∧
    (HeapFile.insert HeapFile.new c9Big =
      (.error (.storage "Failed to insert into new page"),
        { pages := HeapFile.new.pages ++ [Page.new],
          lastPageId := HeapFile.new.pages.length }) ∧
    (HeapFile.insert HeapFile.new c9Big).2.scan = HeapFile.new.scan ∧
    (∀ sid, (HeapFile.insert HeapFile.new c9Big).2.get sid = HeapFile.new.get sid)) := by
  have hwf : HeapWf HeapFile.new := by decide
  have hbig : 4068 < c9Big.toBytes.length := by
    have hlen : c9Big.toBytes.length = 4078 := by
      simp only [c9Big, Tuple.toBytes, List.flatMap_cons, List.flatMap_nil, encodeValue,
        List.append_nil, List.length_append, natToLe_length, List.length_cons,
        List.length_replicate]
    omega
  exact ⟨hwf, hbig, c9_oversized_tuple_insert_fails_but_page_remains HeapFile.new c9Big hwf hbig⟩

theorem pageDelete_spec (p : Page) (sn : Nat) (p' : Page)
    (hdel : p.deleteTuple sn = some p') :
    p'.slots.length = p.slots.length ∧ p'.getTuple sn = none ∧
    (∀ i, i ≠ sn → p'.slots[i]? = p.slots[i]?) ∧ p'.lsn = p.lsn ∧ p'.freeOff = p.freeOff := by
  simp only [Page.deleteTuple] at hdel
  split at hdel
  · exact absurd hdel (by simp)
  · rename_i hlt
    injection hdel with hdel
    subst hdel
    refine ⟨by simp, ?_, ?_, rfl, rfl⟩
    · unfold Page.getTuple
      simp only [List.length_set]
      rw [if_neg hlt]
      rw [List.getD_eq_getElem?_getD, List.getElem?_set_self (by omega)]
      simp
    · intro i hne
      exact List.getElem?_set_ne (fun he => hne he.symm)

theorem pageInsert_fresh_slot (p : Page) (data : List Nat) (p' : Page) (sn : Nat)
    (hins : p.insertTuple data = some (p', sn)) :
    sn = p.slots.length ∧ p'.slots.length = p.slots.length + 1 := by
  simp only [Page.insertTuple] at hins
  split at hins
  · exact absurd hins (by simp)
  · injection hins with hins
    injection hins with h1 h2
    subst h1
    exact ⟨h2.symm, by simp⟩

/-- C8: deleting a slot only tombstones it — the directory keeps its
length and every other slot entry is untouched — and an insert always
receives the page's current tuple count as its slot number, which the
tombstoning never decreases, so no SlotId is ever reused; concretely,
inserting A, B, C into an empty heap yields slots (0,0), (0,1), (0,2),
deleting (0,1) leaves a scan of [(0,0)↦A, (0,2)↦C] in order, and a
subsequent insert D gets the fresh slot (0,3), after which the scan has
exactly three rows. -/
theorem c8_slot_numbers_stable_and_never_reused :
    (∀ (p : Page) (sn : Nat) (p' : Page), p.deleteTuple sn = some p' →
      p'.slots.length = p.slots.length ∧ p'.getTuple sn = none ∧
      (∀ i, i ≠ sn → p'.slots[i]? = p.slots[i]?)) ∧
    (∀ (p : Page) (data : List Nat) (p' : Page) (sn : Nat),
      p.insertTuple data = some (p', sn) →
      sn = p.slots.length ∧ p'.slots.length = p.slots.length + 1) ∧
    ((HeapFile.new.insert (tInt 1)).1 = .ok ⟨0, 0⟩ ∧
      (c8h1.insert (tInt 2)).1 = .ok ⟨0, 1⟩ ∧
      (c8h2.insert (tInt 3)).1 = .ok ⟨0, 2⟩ ∧
      (c8h3.delete ⟨0, 1⟩).1 = .ok () ∧
      c8h4.scan = [(⟨0, 0⟩, tInt 1), (⟨0, 2⟩, tInt 3)] ∧
      (c8h4.insert (tInt 4)).1 = .ok ⟨0, 3⟩ ∧
      c8h5.scan = [(⟨0, 0⟩, tInt 1), (⟨0, 2⟩, tInt 3), (⟨0, 3⟩, tInt 4)]) := by
  refine ⟨?_, ?_, by decide⟩
  · intro p sn p' hdel
    obtain ⟨h1, h2, h3, _, _⟩ := pageDelete_spec p sn p' hdel
    exact ⟨h1, h2, h3⟩
  · intro p data p' sn hins
    exact pageInsert_fresh_slot p data p' sn hins

theorem intToLe_length (w : Nat) (i : Int) : (intToLe w i).length = w := by
  unfold intToLe
  exact natToLe_length w _

theorem leNat_at : ∀ (w : Nat) (pre rest : List Nat) (n : Nat), n < 2 ^ (8 * w) →
    leNat (pre ++ (natToLe w n ++ rest)) pre.length w = n := by
  intro w
  induction w with
  | zero =>
    intro pre rest n hn
    simp only [leNat]
    omega
  | succ w ih =>
    intro pre rest n hn
    simp only [natToLe, leNat, List.cons_append]
    have hg : (pre ++ ((n % 256) :: (natToLe w (n / 256) ++ rest))).getD pre.length 0 =
        n % 256 := by
      rw [List.getD_append_right _ _ _ _ (le_refl _)]
      simp
    rw [hg]
    have hb : pre ++ ((n % 256) :: (natToLe w (n / 256) ++ rest)) =
        (pre ++ [n % 256]) ++ (natToLe w (n / 256) ++ rest) := by
      simp
    have hoff : pre.length + 1 = (pre ++ [n % 256]).length := by simp
    have hdiv : n / 256 < 2 ^ (8 * w) := by
      have h2 : 2 ^ (8 * (w + 1)) = 2 ^ (8 * w) * 256 := by
        rw [show 8 * (w + 1) = 8 * w + 8 from by omega, pow_add]
        norm_num
      omega
    rw [hb, hoff, ih (pre ++ [n % 256]) rest (n / 256) hdiv]
    omega

theorem leInt_at4 (pre rest : List Nat) (i : Int)
    (h1 : -(2 ^ 31) ≤ i) (h2 : i < 2 ^ 31) :
    leInt (pre ++ (intToLe 4 i ++ rest)) pre.length 4 = i := by
  simp only [intToLe, leInt]
  rw [leNat_at 4 pre rest _ (by omega)]
  split
  · rename_i h
    omega
  · rename_i h
    omega

theorem leInt_at8 (pre rest : List Nat) (i : Int)
    (h1 : -(2 ^ 63) ≤ i) (h2 : i < 2 ^ 63) :
    leInt (pre ++ (intToLe 8 i ++ rest)) pre.length 8 = i := by
  simp only [intToLe, leInt]
  rw [leNat_at 8 pre rest _ (by omega)]
  split
  · rename_i h
    omega
  · rename_i h
    omega

theorem getD_at (pre l rest2 : List Nat) (k d : Nat) (hk : k < l.length) :
    ((pre ++ l) ++ rest2).getD (pre.length + k) d = l.getD k d := by
  rw [List.getD_append _ _ _ _ (by simp only [List.length_append]; omega),
    List.getD_append_right _ _ _ _ (by omega)]
  congr 1
  omega

theorem decode_step (v : Value) (hv : WfValue v) (pre tail : List Nat) (n : Nat) :
    decodeValues ((pre ++ encodeValue v) ++ tail) (n + 1) pre.length =
      (decodeValues ((pre ++ encodeValue v) ++ tail) n
        ((pre ++ encodeValue v).length)).map (fun vs => v :: vs) := by
  cases v with
  | null =>
    simp only [encodeValue, decodeValues]
    have hBlen : ((pre ++ [0]) ++ tail).length = pre.length + 1 + tail.length := by
      simp
      omega
    have htag : ((pre ++ [0]) ++ tail).getD pre.length 0 = 0 := by
      have h := getD_at pre [0] tail 0 0 (by simp)
      simpa using h
    rw [if_neg (by omega), htag, if_pos rfl]
    rw [show pre.length + 1 = (pre ++ [0]).length from by simp]
  | boolean b =>
    cases b with
    | true =>
      simp only [encodeValue, if_true, decodeValues]
      have hBlen : ((pre ++ [1, 1]) ++ tail).length = pre.length + 2 + tail.length := by
        simp
        omega
      have htag : ((pre ++ [1, 1]) ++ tail).getD pre.length 0 = 1 := by
        have h := getD_at pre [1, 1] tail 0 0 (by simp)
        simpa using h
      have hval : ((pre ++ [1, 1]) ++ tail).getD (pre.length + 1) 0 = 1 :=
        getD_at pre [1, 1] tail 1 0 (by simp)
      rw [if_neg (by omega), htag, if_neg (by decide), if_pos rfl,
        if_neg (by omega), hval]
      rw [show pre.length + 1 + 1 = (pre ++ [1, 1]).length from by simp]
      norm_num
    | false =>
      simp only [encodeValue, if_false, Bool.false_eq_true, decodeValues]
      have hBlen : ((pre ++ [1, 0]) ++ tail).length = pre.length + 2 + tail.length := by
        simp
        omega
      have htag : ((pre ++ [1, 0]) ++ tail).getD pre.length 0 = 1 := by
        have h := getD_at pre [1, 0] tail 0 0 (by simp)
        simpa using h
      have hval : ((pre ++ [1, 0]) ++ tail).getD (pre.length + 1) 0 = 0 :=
        getD_at pre [1, 0] tail 1 0 (by simp)
      rw [if_neg (by omega), htag, if_neg (by decide), if_pos rfl,
        if_neg (by omega), hval]
      rw [show pre.length + 1 + 1 = (pre ++ [1, 0]).length from by simp]
      norm_num
  | integer i =>
    simp only [encodeValue, decodeValues]
    have hBlen : ((pre ++ (2 :: intToLe 4 i)) ++ tail).length =
        pre.length + 5 + tail.length := by
      simp [intToLe_length]
      omega
    have htag : ((pre ++ (2 :: intToLe 4 i)) ++ tail).getD pre.length 0 = 2 := by
      have h := getD_at pre (2 :: intToLe 4 i) tail 0 0 (by simp)
      simpa using h
    rw [if_neg (by omega), htag, if_neg (by decide), if_neg (by decide), if_pos rfl,
      if_neg (by omega)]
    have hle : leInt ((pre ++ (2 :: intToLe 4 i)) ++ tail) (pre.length + 1) 4 = i := by
      rw [show (pre ++ (2 :: intToLe 4 i)) ++ tail =
          (pre ++ [2]) ++ (intToLe 4 i ++ tail) from by simp,
        show pre.length + 1 = (pre ++ [2]).length from by simp]
      exact leInt_at4 (pre ++ [2]) tail i hv.1 hv.2
    rw [hle, show pre.length + 1 + 4 = (pre ++ (2 :: intToLe 4 i)).length from by
      simp [intToLe_length]]
  | bigint i =>
    simp only [encodeValue, decodeValues]
    have hBlen : ((pre ++ (3 :: intToLe 8 i)) ++ tail).length =
        pre.length + 9 + tail.length := by
      simp [intToLe_length]
      omega
    have htag : ((pre ++ (3 :: intToLe 8 i)) ++ tail).getD pre.length 0 = 3 := by
      have h := getD_at pre (3 :: intToLe 8 i) tail 0 0 (by simp)
      simpa using h
    rw [if_neg (by omega), htag, if_neg (by decide), if_neg (by decide),
      if_neg (by decide), if_pos rfl, if_neg (by omega)]
    have hle : leInt ((pre ++ (3 :: intToLe 8 i)) ++ tail) (pre.length + 1) 8 = i := by
      rw [show (pre ++ (3 :: intToLe 8 i)) ++ tail =
          (pre ++ [3]) ++ (intToLe 8 i ++ tail) from by simp,
        show pre.length + 1 = (pre ++ [3]).length from by simp]
      exact leInt_at8 (pre ++ [3]) tail i hv.1 hv.2
    rw [hle, show pre.length + 1 + 8 = (pre ++ (3 :: intToLe 8 i)).length from by
      simp [intToLe_length]]
  | float bits =>
    simp only [encodeValue, decodeValues]
    have hBlen : ((pre ++ (4 :: natToLe 8 bits)) ++ tail).length =
        pre.length + 9 + tail.length := by
      simp [natToLe_length]
      omega
    have htag : ((pre ++ (4 :: natToLe 8 bits)) ++ tail).getD pre.length 0 = 4 := by
      have h := getD_at pre (4 :: natToLe 8 bits) tail 0 0 (by simp)
      simpa using h
    rw [if_neg (by omega), htag, if_neg (by decide), if_neg (by decide),
      if_neg (by decide), if_neg (by decide), if_pos rfl, if_neg (by omega)]
    have hle : leNat ((pre ++ (4 :: natToLe 8 bits)) ++ tail) (pre.length + 1) 8 = bits := by
      rw [show (pre ++ (4 :: natToLe 8 bits)) ++ tail =
          (pre ++ [4]) ++ (natToLe 8 bits ++ tail) from by simp,
        show pre.length + 1 = (pre ++ [4]).length from by simp]
      exact leNat_at 8 (pre ++ [4]) tail bits (by have hvb : bits < 2 ^ 64 := hv; omega)
    rw [hle, show pre.length + 1 + 8 = (pre ++ (4 :: natToLe 8 bits)).length from by
      simp [natToLe_length]]
  | string s =>
    obtain ⟨hslt, hsutf⟩ := hv
    simp only [encodeValue, decodeValues, Nat.mod_eq_of_lt hslt]
    have hBlen : ((pre ++ (5 :: (natToLe 4 s.length ++ s))) ++ tail).length =
        pre.length + 5 + s.length + tail.length := by
      simp [natToLe_length]
      omega
    have htag : ((pre ++ (5 :: (natToLe 4 s.length ++ s))) ++ tail).getD pre.length 0 = 5 := by
      have h := getD_at pre (5 :: (natToLe 4 s.length ++ s)) tail 0 0 (by simp)
      simpa using h
    rw [if_neg (by omega), htag, if_neg (by decide), if_neg (by decide),
      if_neg (by decide), if_neg (by decide), if_neg (by decide), if_pos rfl,
      if_neg (by omega)]
    have hlen5 : leNat ((pre ++ (5 :: (natToLe 4 s.length ++ s))) ++ tail)
        (pre.length + 1) 4 = s.length := by
      rw [show (pre ++ (5 :: (natToLe 4 s.length ++ s))) ++ tail =
          (pre ++ [5]) ++ (natToLe 4 s.length ++ (s ++ tail)) from by simp,
        show pre.length + 1 = (pre ++ [5]).length from by simp]
      exact leNat_at 4 (pre ++ [5]) (s ++ tail) s.length (by omega)
    rw [hlen5]
    rw [if_neg (by omega)]
    have hdrop : ((pre ++ (5 :: (natToLe 4 s.length ++ s))) ++ tail).drop
        (pre.length + 1 + 4) = s ++ tail := by
      rw [show (pre ++ (5 :: (natToLe 4 s.length ++ s))) ++ tail =
          ((pre ++ [5]) ++ natToLe 4 s.length) ++ (s ++ tail) from by simp]
      exact List.drop_left' (by simp [natToLe_length] <;> omega)
    rw [hdrop, List.take_left' rfl, if_pos hsutf]
    rw [show pre.length + 1 + 4 + s.length =
        (pre ++ (5 :: (natToLe 4 s.length ++ s))).length from by simp [natToLe_length] <;> omega]
  | date d =>
    simp only [encodeValue, decodeValues]
    have hBlen : ((pre ++ (6 :: intToLe 4 d)) ++ tail).length =
        pre.length + 5 + tail.length := by
      simp [intToLe_length]
      omega
    have htag : ((pre ++ (6 :: intToLe 4 d)) ++ tail).getD pre.length 0 = 6 := by
      have h := getD_at pre (6 :: intToLe 4 d) tail 0 0 (by simp)
      simpa using h
    rw [if_neg (by omega), htag, if_neg (by decide), if_neg (by decide),
      if_neg (by decide), if_neg (by decide), if_neg (by decide), if_neg (by decide),
      if_pos rfl, if_neg (by omega)]
    have hle : leInt ((pre ++ (6 :: intToLe 4 d)) ++ tail) (pre.length + 1) 4 = d := by
      rw [show (pre ++ (6 :: intToLe 4 d)) ++ tail =
          (pre ++ [6]) ++ (intToLe 4 d ++ tail) from by simp,
        show pre.length + 1 = (pre ++ [6]).length from by simp]
      exact leInt_at4 (pre ++ [6]) tail d hv.1 hv.2
    rw [hle, show pre.length + 1 + 4 = (pre ++ (6 :: intToLe 4 d)).length from by
      simp [intToLe_length]]
  | timestamp t =>
    simp only [encodeValue, decodeValues]
    have hBlen : ((pre ++ (7 :: intToLe 8 t)) ++ tail).length =
        pre.length + 9 + tail.length := by
      simp [intToLe_length]
      omega
    have htag : ((pre ++ (7 :: intToLe 8 t)) ++ tail).getD pre.length 0 = 7 := by
      have h := getD_at pre (7 :: intToLe 8 t) tail 0 0 (by simp)
      simpa using h
    rw [if_neg (by omega), htag, if_neg (by decide), if_neg (by decide),
      if_neg (by decide), if_neg (by decide), if_neg (by decide), if_neg (by decide),
      if_neg (by decide), if_pos rfl, if_neg (by omega)]
    have hle : leInt ((pre ++ (7 :: intToLe 8 t)) ++ tail) (pre.length + 1) 8 = t := by
      rw [show (pre ++ (7 :: intToLe 8 t)) ++ tail =
          (pre ++ [7]) ++ (intToLe 8 t ++ tail) from by simp,
        show pre.length + 1 = (pre ++ [7]).length from by simp]
      exact leInt_at8 (pre ++ [7]) tail t hv.1 hv.2
    rw [hle, show pre.length + 1 + 8 = (pre ++ (7 :: intToLe 8 t)).length from by
      simp [intToLe_length]]
  | bytes b =>
    simp only [encodeValue, decodeValues, Nat.mod_eq_of_lt hv]
    have hBlen : ((pre ++ (8 :: (natToLe 4 b.length ++ b))) ++ tail).length =
        pre.length + 5 + b.length + tail.length := by
      simp [natToLe_length]
      omega
    have htag : ((pre ++ (8 :: (natToLe 4 b.length ++ b))) ++ tail).getD pre.length 0 = 8 := by
      have h := getD_at pre (8 :: (natToLe 4 b.length ++ b)) tail 0 0 (by simp)
      simpa using h
    rw [if_neg (by omega), htag, if_neg (by decide), if_neg (by decide),
      if_neg (by decide), if_neg (by decide), if_neg (by decide), if_neg (by decide),
      if_neg (by decide), if_neg (by decide), if_pos rfl, if_neg (by omega)]
    have hlen8 : leNat ((pre ++ (8 :: (natToLe 4 b.length ++ b))) ++ tail)
        (pre.length + 1) 4 = b.length := by
      rw [show (pre ++ (8 :: (natToLe 4 b.length ++ b))) ++ tail =
          (pre ++ [8]) ++ (natToLe 4 b.length ++ (b ++ tail)) from by simp,
        show pre.length + 1 = (pre ++ [8]).length from by simp]
      exact leNat_at 4 (pre ++ [8]) (b ++ tail) b.length (by have hvb : b.length < 2 ^ 32 := hv; omega)
    rw [hlen8]
    rw [if_neg (by omega)]
    have hdrop : ((pre ++ (8 :: (natToLe 4 b.length ++ b))) ++ tail).drop
        (pre.length + 1 + 4) = b ++ tail := by
      rw [show (pre ++ (8 :: (natToLe 4 b.length ++ b))) ++ tail =
          ((pre ++ [8]) ++ natToLe 4 b.length) ++ (b ++ tail) from by simp]
      exact List.drop_left' (by simp [natToLe_length] <;> omega)
    rw [hdrop, List.take_left' rfl]
    rw [show pre.length + 1 + 4 + b.length =
        (pre ++ (8 :: (natToLe 4 b.length ++ b))).length from by simp [natToLe_length] <;> omega]

theorem decodeValues_roundtrip : ∀ (vs : List Value) (pre rest : List Nat),
    (∀ v ∈ vs, WfValue v) →
    decodeValues (pre ++ (vs.flatMap encodeValue ++ rest)) vs.length pre.length = .ok vs := by
  intro vs
  induction vs with
  | nil =>
    intro pre rest h
    rfl
  | cons v vs ih =>
    intro pre rest hwf
    rw [List.flatMap_cons, List.append_assoc, ← List.append_assoc, List.length_cons]
    rw [decode_step v (hwf v (by simp)) pre (vs.flatMap encodeValue ++ rest) vs.length]
    rw [ih (pre ++ encodeValue v) rest (fun u hu => hwf u (List.mem_cons_of_mem _ hu))]
    rfl

theorem fromBytes_toBytes (t : Tuple) (hwf : WfTuple t) :
    Tuple.fromBytes t.toBytes = .ok t := by
  obtain ⟨hcnt, hvals⟩ := hwf
  simp only [Tuple.fromBytes, Tuple.toBytes, Nat.mod_eq_of_lt hcnt]
  rw [if_neg (by simp only [List.length_append, natToLe_length]; omega)]
  have hcount : leNat (natToLe 4 t.values.length ++ t.values.flatMap encodeValue) 0 4 =
      t.values.length := by
    have h := leNat_at 4 [] (t.values.flatMap encodeValue ++ []) t.values.length hcnt
    simpa using h
  rw [hcount]
  have hdec : decodeValues (natToLe 4 t.values.length ++ t.values.flatMap encodeValue)
      t.values.length 4 = .ok t.values := by
    have h := decodeValues_roundtrip t.values (natToLe 4 t.values.length) [] hvals
    rw [List.append_nil] at h
    rw [natToLe_length] at h
    exact h
  rw [hdec]
  rfl

/-- C6 (counterexample): a tuple of 2^32 Null values round-trips to the
EMPTY tuple, because to_bytes writes the count as `values.len() as u32`,
which wraps 2^32 to 0 — so the unrestricted identity
decode(encode(t)) = t is false. -/
theorem c6_roundtrip_fails_at_u32_wrap :
    Tuple.fromBytes (Tuple.toBytes ⟨List.replicate (2 ^ 32) Value.null⟩) =
      .ok ⟨[]⟩ ∧
    (⟨List.replicate (2 ^ 32) Value.null⟩ : Tuple) ≠ ⟨[]⟩ := by
  have key : ∀ rest : List Nat, Tuple.fromBytes (natToLe 4 0 ++ rest) = .ok ⟨[]⟩ := by
    intro rest
    unfold Tuple.fromBytes
    rw [if_neg (by rw [List.length_append, natToLe_length]; omega)]
    have h := leNat_at 4 [] rest 0 (by positivity)
    rw [List.nil_append, List.length_nil] at h
    rw [h]
    rfl
  have tb : ∀ l : List Value,
      Tuple.toBytes ⟨l⟩ = natToLe 4 (l.length % 2 ^ 32) ++ l.flatMap encodeValue :=
    fun l => rfl
  constructor
  · rw [tb, List.length_replicate, Nat.mod_self]
    exact key _
  · intro h
    injection h with h2
    have h3 := congrArg List.length h2
    rw [List.length_replicate, List.length_nil] at h3
    exact absurd h3 (by norm_num)

/-- C6 (amended): the encode/decode round trip holds for every tuple
within the codec's u32 bounds — fewer than 2^32 values, each Integer
and Date within i32 range, each BigInt and Timestamp within i64 range,
each Float bit pattern below 2^64, each String payload valid UTF-8 and
shorter than 2^32 bytes, each Bytes payload shorter than 2^32 — under
the engine's equality (Float compared by raw bit pattern, so the
identity also holds for NaN and distinguishes -0.0 from +0.0); the
second conjunct runs the round trip on a concrete tuple covering all
nine variants including a NaN and negative zero.  Outside those bounds
the u32 length casts wrap and the identity fails. -/
theorem c6_roundtrip_for_bounded_tuples :
    (∀ t : Tuple, WfTuple t → Tuple.fromBytes t.toBytes = .ok t) ∧
    (WfTuple c6Witness ∧ Tuple.fromBytes c6Witness.toBytes = .ok c6Witness) := by
  refine ⟨fun t h => fromBytes_toBytes t h, by decide, by decide⟩

theorem excBindOk {α β ε : Type} (x : α) (f : α → Except ε β) :
    (Except.ok x >>= f) = f x := rfl

theorem excBindErr {α β ε : Type} (e : ε) (f : α → Except ε β) :
    ((Except.error e : Except ε α) >>= f) = Except.error e := rfl

theorem assocSet_find_other {α : Type} (l : List (String × α)) (name name' : String) (v : α)
    (hne : name' ≠ name) :
    ((assocSet l name v).find? fun e => e.1 = name') = (l.find? fun e => e.1 = name') := by
  induction l with
  | nil => simp [assocSet]
  | cons hd tl ih =>
    obtain ⟨n, x⟩ := hd
    by_cases hn : n = name
    · subst hn
      simp only [assocSet, eq_self_iff_true, if_true]
      have hcond : ¬ (n = name') := fun he => hne he.symm
      rw [List.find?_cons_of_neg _ (by simpa using hcond),
        List.find?_cons_of_neg _ (by simpa using hcond)]
    · simp only [assocSet, if_neg hn]
      by_cases hm : n = name'
      · subst hm
        rw [List.find?_cons_of_pos _ (by simp), List.find?_cons_of_pos _ (by simp)]
      · rw [List.find?_cons_of_neg _ (by simpa using hm),
          List.find?_cons_of_neg _ (by simpa using hm)]
        exact ih

theorem dbLookup_setTable_self (st : DBState) (name : String) (tbl0 tblN : Table)
    (h : st.lookup name = some tbl0) :
    (st.setTable name tblN).lookup name = some tblN := by
  unfold DBState.lookup at h ⊢
  unfold DBState.setTable
  rw [assocSet_find_self st.tables name tbl0 tblN h]
  rfl

theorem dbLookup_setTable_other (st : DBState) (name name' : String) (tblN : Table)
    (hne : name' ≠ name) :
    (st.setTable name tblN).lookup name' = st.lookup name' := by
  unfold DBState.lookup DBState.setTable
  rw [assocSet_find_other st.tables name name' tblN hne]

theorem getPageLsn_setPageLsn_other (h : HeapFile) (pid pid' lsn : Nat) (hne : pid' ≠ pid) :
    (h.setPageLsn pid lsn).getPageLsn pid' = h.getPageLsn pid' := by
  unfold HeapFile.setPageLsn
  rcases hp : h.pages[pid]? with _ | p
  · rfl
  · unfold HeapFile.getPageLsn
    simp only
    rw [List.getElem?_set_ne (fun hh => hne hh.symm)]

theorem heapInsert_mono (h : HeapFile) (t : Tuple) :
    h.pages.length ≤ ((h.insert t).2).pages.length ∧
    ∀ pid, pid < h.pages.length →
      ((h.insert t).2).getPageLsn pid = h.getPageLsn pid := by
  unfold HeapFile.insert
  split
  · exact ⟨le_refl _, fun _ _ => rfl⟩
  · rename_i p hp
    have hlast : h.lastPageId < h.pages.length := (List.getElem?_eq_some_iff.mp hp).1
    dsimp only
    split
    · rename_i pr p' sn hins
      have hlsn : p'.lsn = p.lsn := by
        simp only [Page.insertTuple] at hins
        split at hins
        · cases hins
        · injection hins with h1
          injection h1 with hp' hsn
          subst hp'
          rfl
      constructor
      · dsimp only
        rw [List.length_set]
      · intro pid hpid
        dsimp only
        unfold HeapFile.getPageLsn
        by_cases he : pid = h.lastPageId
        · subst he
          rw [List.getElem?_set_self hlast, hp]
          dsimp only
          exact hlsn
        · rw [List.getElem?_set_ne (fun hh => he hh.symm)]
    · rename_i hins
      split
      · rename_i pr2 p2 sn2 hins2
        constructor
        · dsimp only
          simp
        · intro pid hpid
          dsimp only
          unfold HeapFile.getPageLsn
          rw [List.getElem?_append_left hpid]
      · rename_i hins2
        constructor
        · dsimp only
          simp
        · intro pid hpid
          dsimp only
          unfold HeapFile.getPageLsn
          rw [List.getElem?_append_left hpid]

theorem heapUpdate_mono (h : HeapFile) (sid : SlotId) (t : Tuple) :
    ((h.update sid t).2).pages.length = h.pages.length ∧
    ∀ pid, ((h.update sid t).2).getPageLsn pid = h.getPageLsn pid := by
  unfold HeapFile.update
  split
  · exact ⟨rfl, fun _ => rfl⟩
  · rename_i p hp
    have hlt : sid.pageId < h.pages.length := (List.getElem?_eq_some_iff.mp hp).1
    split
    · rename_i p2 hupd
      have hlsn : p2.lsn = p.lsn := by
        simp only [Page.updateTuple] at hupd
        split at hupd
        · cases hupd
        · split at hupd
          · injection hupd with h1
            subst h1
            rfl
          · split at hupd
            · injection hupd with h1
              subst h1
              rfl
            · cases hupd
      constructor
      · dsimp only
        rw [List.length_set]
      · intro pid
        dsimp only
        unfold HeapFile.getPageLsn
        by_cases he : pid = sid.pageId
        · subst he
          rw [List.getElem?_set_self hlt, hp]
          dsimp only
          exact hlsn
        · rw [List.getElem?_set_ne (fun hh => he hh.symm)]
    · exact ⟨rfl, fun _ => rfl⟩

theorem heapDelete_mono (h : HeapFile) (sid : SlotId) :
    ((h.delete sid).2).pages.length = h.pages.length ∧
    ∀ pid, ((h.delete sid).2).getPageLsn pid = h.getPageLsn pid := by
  unfold HeapFile.delete
  split
  · exact ⟨rfl, fun _ => rfl⟩
  · rename_i p hp
    have hlt : sid.pageId < h.pages.length := (List.getElem?_eq_some_iff.mp hp).1
    split
    · rename_i p2 hdel
      have hlsn : p2.lsn = p.lsn := by
        simp only [Page.deleteTuple] at hdel
        split at hdel
        · cases hdel
        · injection hdel with h1
          subst h1
          rfl
      constructor
      · dsimp only
        rw [List.length_set]
      · intro pid
        dsimp only
        unfold HeapFile.getPageLsn
        by_cases he : pid = sid.pageId
        · subst he
          rw [List.getElem?_set_self hlt, hp]
          dsimp only
          exact hlsn
        · rw [List.getElem?_set_ne (fun hh => he hh.symm)]
    · exact ⟨rfl, fun _ => rfl⟩

theorem tableInsert_mono (tbl : Table) (t : Tuple) :
    tbl.heap.pages.length ≤ ((tbl.insert t).2).heap.pages.length ∧
    ∀ pid, pid < tbl.heap.pages.length →
      ((tbl.insert t).2).heap.getPageLsn pid = tbl.heap.getPageLsn pid := by
  have hm := heapInsert_mono tbl.heap t
  rcases hres : tbl.heap.insert t with ⟨res, h2⟩
  rw [hres] at hm
  dsimp only at hm
  unfold Table.insert
  split
  · exact ⟨le_refl _, fun _ _ => rfl⟩
  · split
    · exact ⟨le_refl _, fun _ _ => rfl⟩
    · rcases res with e | sid
      · rw [hres]
        dsimp only
        exact hm
      · rw [hres]
        dsimp only
        exact hm

theorem tableUpdate_mono (tbl : Table) (sid : SlotId) (t : Tuple) :
    tbl.heap.pages.length ≤ ((tbl.update sid t).2).heap.pages.length ∧
    ∀ pid, pid < tbl.heap.pages.length →
      ((tbl.update sid t).2).heap.getPageLsn pid = tbl.heap.getPageLsn pid := by
  have hm := heapUpdate_mono tbl.heap sid t
  rcases hres : tbl.heap.update sid t with ⟨res, h2⟩
  rw [hres] at hm
  dsimp only at hm
  unfold Table.update
  split
  · exact ⟨le_refl _, fun _ _ => rfl⟩
  · split
    · exact ⟨le_refl _, fun _ _ => rfl⟩
    · rcases res with e | u
      · rw [hres]
        dsimp only
        exact ⟨le_of_eq hm.1.symm, fun pid _ => hm.2 pid⟩
      · rw [hres]
        dsimp only
        exact ⟨le_of_eq hm.1.symm, fun pid _ => hm.2 pid⟩

theorem tableDelete_mono (tbl : Table) (sid : SlotId) :
    tbl.heap.pages.length ≤ ((tbl.delete sid).2).heap.pages.length ∧
    ∀ pid, pid < tbl.heap.pages.length →
      ((tbl.delete sid).2).heap.getPageLsn pid = tbl.heap.getPageLsn pid := by
  have hm := heapDelete_mono tbl.heap sid
  rcases hres : tbl.heap.delete sid with ⟨res, h2⟩
  rw [hres] at hm
  dsimp only at hm
  unfold Table.delete
  split
  · exact ⟨le_refl _, fun _ _ => rfl⟩
  · rcases res with e | u
    · rw [hres]
      dsimp only
      exact ⟨le_of_eq hm.1.symm, fun pid _ => hm.2 pid⟩
    · rw [hres]
      dsimp only
      exact ⟨le_of_eq hm.1.symm, fun pid _ => hm.2 pid⟩

theorem redoApply_mono (tbl : Table) (r : LogRecord) (sid : SlotId) :
    tbl.heap.pages.length ≤ (redoApply tbl r sid).heap.pages.length ∧
    ∀ pid, pid < tbl.heap.pages.length →
      (redoApply tbl r sid).heap.getPageLsn pid = tbl.heap.getPageLsn pid := by
  unfold redoApply
  split
  · split
    · rename_i a _
      exact tableInsert_mono tbl a
    · exact ⟨le_refl _, fun _ _ => rfl⟩
  · split
    · rename_i a _
      exact tableUpdate_mono tbl sid a
    · exact ⟨le_refl _, fun _ _ => rfl⟩
  · exact tableDelete_mono tbl sid
  · exact ⟨le_refl _, fun _ _ => rfl⟩

theorem tableSetPageLsn_pages_length (tbl : Table) (pid lsn : Nat) :
    (tbl.setPageLsn pid lsn).heap.pages.length = tbl.heap.pages.length := by
  unfold Table.setPageLsn
  exact setPageLsn_pages_length tbl.heap pid lsn

theorem redoStep_mono (c : List Nat) (st st' : DBState) (r : LogRecord)
    (hok : redoStep c st r = .ok st') :
    ∀ name pid, pid < pagesAt st name →
      pagesAt st name ≤ pagesAt st' name ∧ lsnAt st name pid ≤ lsnAt st' name pid := by
  unfold redoStep at hok
  split at hok
  · split at hok
    · rename_i name0 sid0 hn0 hs0
      split at hok
      · cases hok
      · rename_i tbl hlk
        split at hok
        · rename_i hguard
          injection hok with h
          subst h
          intro name pid hp
          by_cases hn : name = name0
          · subst hn
            have hset := dbLookup_setTable_self st name
              tbl ((redoApply tbl r sid0).setPageLsn sid0.pageId r.lsn) hlk
            have hpa : pagesAt st name = tbl.heap.pages.length := by
              unfold pagesAt
              simp only [hlk]
            have hp2 : pid < tbl.heap.pages.length := by
              rw [hpa] at hp
              exact hp
            have hmono := redoApply_mono tbl r sid0
            constructor
            · unfold pagesAt
              simp only [hset, hlk]
              unfold Table.setPageLsn
              dsimp only
              rw [setPageLsn_pages_length]
              exact hmono.1
            · unfold lsnAt
              simp only [hset, hlk]
              unfold Table.setPageLsn Table.getPageLsn
              dsimp only
              by_cases hq : pid = sid0.pageId
              · subst hq
                rw [getPageLsn_setPageLsn_self _ _ _ (lt_of_lt_of_le hp2 hmono.1)]
                unfold Table.getPageLsn at hguard
                omega
              · rw [getPageLsn_setPageLsn_other _ _ _ _ hq]
                rw [hmono.2 pid hp2]
          · have hset := dbLookup_setTable_other st name0 name
              ((redoApply tbl r sid0).setPageLsn sid0.pageId r.lsn) hn
            unfold pagesAt lsnAt
            rw [hset]
            exact ⟨le_refl _, le_refl _⟩
        · injection hok with h
          subst h
          exact fun name pid hp => ⟨le_refl _, le_refl _⟩
    · injection hok with h
      subst h
      exact fun name pid hp => ⟨le_refl _, le_refl _⟩
  · injection hok with h
    subst h
    exact fun name pid hp => ⟨le_refl _, le_refl _⟩

theorem redoStep_stamps (c : List Nat) (st st' : DBState) (r : LogRecord)
    (name : String) (sid : SlotId)
    (hok : redoStep c st r = .ok st')
    (hc : r.transId ∈ c) (hn : r.tableName = some name) (hs : r.slotId = some sid)
    (hpage : sid.pageId < pagesAt st name) :
    r.lsn ≤ lsnAt st' name sid.pageId := by
  have hlk : ∃ tbl, st.lookup name = some tbl := by
    unfold pagesAt at hpage
    rcases hl : st.lookup name with _ | tbl
    · simp only [hl] at hpage
      omega
    · exact ⟨tbl, rfl⟩
  obtain ⟨tbl, hlk⟩ := hlk
  have hpa : pagesAt st name = tbl.heap.pages.length := by
    unfold pagesAt
    simp only [hlk]
  have hp2 : sid.pageId < tbl.heap.pages.length := by
    rw [hpa] at hpage
    exact hpage
  unfold redoStep at hok
  rw [if_pos hc, hn, hs] at hok
  simp only [hlk] at hok
  split at hok
  · rename_i hguard
    injection hok with h
    subst h
    have hset := dbLookup_setTable_self st name
      tbl ((redoApply tbl r sid).setPageLsn sid.pageId r.lsn) hlk
    have hmono := redoApply_mono tbl r sid
    unfold lsnAt
    simp only [hset]
    unfold Table.setPageLsn Table.getPageLsn
    dsimp only
    rw [getPageLsn_setPageLsn_self _ _ _ (lt_of_lt_of_le hp2 hmono.1)]
  · rename_i hguard
    injection hok with h
    subst h
    unfold lsnAt
    simp only [hlk]
    unfold Table.getPageLsn at hguard ⊢
    omega

theorem redoFold_mono (c : List Nat) : ∀ (l : List LogRecord) (st st1 : DBState),
    List.foldlM (redoStep c) st l = .ok st1 →
    ∀ name pid, pid < pagesAt st name →
      pagesAt st name ≤ pagesAt st1 name ∧ lsnAt st name pid ≤ lsnAt st1 name pid := by
  intro l
  induction l with
  | nil =>
    intro st st1 h name pid hp
    injection h with h
    subst h
    exact ⟨le_refl _, le_refl _⟩
  | cons r l ih =>
    intro st st1 h name pid hp
    rw [List.foldlM_cons] at h
    rcases hstep : redoStep c st r with e | st2
    · rw [hstep, excBindErr] at h
      cases h
    · rw [hstep, excBindOk] at h
      have h1 := redoStep_mono c st st2 r hstep name pid hp
      have h2 := ih st2 st1 h name pid (lt_of_lt_of_le hp h1.1)
      exact ⟨le_trans h1.1 h2.1, le_trans h1.2 h2.2⟩

theorem redoFold_stamps (c : List Nat) : ∀ (l : List LogRecord) (st st1 : DBState),
    List.foldlM (redoStep c) st l = .ok st1 →
    (∀ r ∈ l, r.transId ∈ c → ∀ name sid, r.tableName = some name → r.slotId = some sid →
      sid.pageId < pagesAt st name) →
    ∀ r ∈ l, r.transId ∈ c → ∀ name sid, r.tableName = some name → r.slotId = some sid →
      sid.pageId < pagesAt st1 name ∧ r.lsn ≤ lsnAt st1 name sid.pageId := by
  intro l
  induction l with
  | nil =>
    intro st st1 h hpres r hr
    simp at hr
  | cons r0 l ih =>
    intro st st1 h hpres r hr hc name sid hn hs
    rw [List.foldlM_cons] at h
    rcases hstep : redoStep c st r0 with e | st2
    · rw [hstep, excBindErr] at h
      cases h
    · rw [hstep, excBindOk] at h
      rcases List.mem_cons.mp hr with he | hm
      · subst he
        have hp0 := hpres r (List.mem_cons_self _ _) hc name sid hn hs
        have hst : r.lsn ≤ lsnAt st2 name sid.pageId :=
          redoStep_stamps c st st2 r name sid hstep hc hn hs hp0
        have hp2 : sid.pageId < pagesAt st2 name :=
          lt_of_lt_of_le hp0 (redoStep_mono c st st2 r hstep name sid.pageId hp0).1
        have hf := redoFold_mono c l st2 st1 h name sid.pageId hp2
        exact ⟨lt_of_lt_of_le hp2 hf.1, le_trans hst hf.2⟩
      · apply ih st2 st1 h ?_ r hm hc name sid hn hs
        intro r1 hr1 hc1 name1 sid1 hn1 hs1
        have hp1 := hpres r1 (List.mem_cons_of_mem _ hr1) hc1 name1 sid1 hn1 hs1
        exact lt_of_lt_of_le hp1 (redoStep_mono c st st2 r0 hstep name1 sid1.pageId hp1).1

theorem redoFold_noop (c : List Nat) : ∀ (l : List LogRecord) (st1 : DBState),
    (∀ r ∈ l, r.transId ∈ c → ∀ name sid, r.tableName = some name → r.slotId = some sid →
      sid.pageId < pagesAt st1 name ∧ r.lsn ≤ lsnAt st1 name sid.pageId) →
    List.foldlM (redoStep c) st1 l = .ok st1 := by
  intro l
  induction l with
  | nil =>
    intro st1 h
    rfl
  | cons r l ih =>
    intro st1 h
    rw [List.foldlM_cons]
    have hstep : redoStep c st1 r = .ok st1 := by
      unfold redoStep
      by_cases hc : r.transId ∈ c
      · rw [if_pos hc]
        rcases hn : r.tableName with _ | name
        · simp only [hn]
        · rcases hs : r.slotId with _ | sid
          · simp only [hn, hs]
          · obtain ⟨hp, hl⟩ := h r (List.mem_cons_self _ _) hc name sid hn hs
            have hlk : ∃ tbl, st1.lookup name = some tbl := by
              unfold pagesAt at hp
              rcases hl2 : st1.lookup name with _ | tbl
              · simp only [hl2] at hp
                omega
              · exact ⟨tbl, rfl⟩
            obtain ⟨tbl, hlk⟩ := hlk
            have hlsn : lsnAt st1 name sid.pageId = tbl.getPageLsn sid.pageId := by
              unfold lsnAt
              simp only [hlk]
            rw [hlsn] at hl
            simp only [hn, hs, hlk]
            rw [if_neg (by omega)]
      · rw [if_neg hc]
    rw [hstep, excBindOk]
    exact ih st1 (fun r1 hr1 => h r1 (List.mem_cons_of_mem _ hr1))

theorem undoFold_empty : ∀ (l : List LogRecord) (st : DBState),
    List.foldlM (undoStep []) st l = .ok st := by
  intro l
  induction l with
  | nil =>
    intro st
    rfl
  | cons r l ih =>
    intro st
    rw [List.foldlM_cons]
    have hstep : undoStep [] st r = .ok st := by
      unfold undoStep
      rw [if_neg (by simp)]
    rw [hstep, excBindOk]
    exact ih st

theorem recover_eq_redo (records : List LogRecord) (st : DBState)
    (hactive : (analyzeRecords records).2 = []) :
    recover records st = List.foldlM (redoStep (analyzeRecords records).1) st records := by
  show (List.foldlM (redoStep (analyzeRecords records).1) st records >>= fun st2 =>
    List.foldlM (undoStep (analyzeRecords records).2) st2 records.reverse) =
    List.foldlM (redoStep (analyzeRecords records).1) st records
  rw [hactive]
  rcases hredo : List.foldlM (redoStep (analyzeRecords records).1) st records with e | st2
  · rw [excBindErr]
  · rw [excBindOk]
    exact undoFold_empty records.reverse st2

/-- C1: recovery's redo pass is idempotent and preserves committed
effects exactly once.  First conjunct, for any log whose analysis finds
no active transaction and any crash state in which every committed
record's page exists (true of real crash images, since page allocation
extends the file durably before a slot can be logged): a second
recovery over the state produced by a first successful recovery
returns that state unchanged — after the first pass every committed
record's page-LSN is at least the record's LSN, so every redo guard
page_lsn < record.lsn is false.  The remaining conjuncts run the
spec's scenario: recovering the Begin/Insert(7)/Commit log over a
crash image without the flushed page (c1StateA) or with it (c1StateB)
yields a scan containing row (7) exactly once, and recovering a second
time still yields exactly one copy. -/
theorem c1_recovery_redo_idempotent_exactly_once :
    (∀ (records : List LogRecord) (st st1 : DBState),
      (analyzeRecords records).2 = [] → CommittedPagesPresent records st →
      recover records st = .ok st1 → recover records st1 = .ok st1) ∧
    (recover c1Log c1StateA).map (fun st => scanCount st "t" (tInt 7)) = .ok 1 ∧
    ((recover c1Log c1StateA).bind (recover c1Log)).map
      (fun st => scanCount st "t" (tInt 7)) = .ok 1 ∧
    (recover c1Log c1StateB).map (fun st => scanCount st "t" (tInt 7)) = .ok 1 ∧
    ((recover c1Log c1StateB).bind (recover c1Log)).map
      (fun st => scanCount st "t" (tInt 7)) = .ok 1 := by
  refine ⟨?_, by decide, by decide, by decide, by decide⟩
  intro records st st1 hactive hpres hrec
  rw [recover_eq_redo records st hactive] at hrec
  rw [recover_eq_redo records st1 hactive]
  apply redoFold_noop
  intro r hr hc name sid hn hs
  apply redoFold_stamps (analyzeRecords records).1 records st st1 hrec ?_ r hr hc name sid hn hs
  intro r1 hr1 hc1 name1 sid1 hn1 hs1
  obtain ⟨tbl, hlk, hlt⟩ := hpres r1 hr1 hc1 name1 sid1 hn1 hs1
  unfold pagesAt
  rw [hlk]
  exact hlt

/-- C2 (scenario evaluation): in a crash image where uncommitted T2
overwrote committed row tBig at (0,0) with tSmall and the page (LSN 4)
reached disk, recovery succeeds but leaves the state EXACTLY as
crashed: the undo of T2's Update tries to restore the 4009-byte
before-image into the 14-byte slot, Page::update_tuple rejects it for
lack of free space, and recover discards the failure with .ok() — so
the uncommitted after-image tSmall survives and the committed tBig is
lost. -/
theorem c2_undo_swallows_failed_before_image_restore :
    recover c2Log ⟨[("t", c2CrashTable)]⟩ = .ok ⟨[("t", c2CrashTable)]⟩ ∧
    (analyzeRecords c2Log).2 = [2] ∧
    (((⟨[("t", c2CrashTable)]⟩ : DBState).lookup "t").bind fun tbl => tbl.get ⟨0, 0⟩) =
      some tSmall ∧
    tSmall ≠ tBig := by
  have hB : tBig.toBytes.length = 4009 := by
    simp only [tBig, Tuple.toBytes, List.flatMap_cons, List.flatMap_nil, encodeValue,
      List.append_nil, List.length_append, natToLe_length, List.length_cons,
      List.length_replicate]
  have hPU : Page.updateTuple c2Page 0 tBig.toBytes = none := by
    simp only [Page.updateTuple, Page.freeSpace, hB]
    decide
  have hHU : HeapFile.update c2CrashTable.heap ⟨0, 0⟩ tBig =
      (.error (.storage "could not update tuple"), c2CrashTable.heap) := by
    simp only [HeapFile.update,
      show c2CrashTable.heap.pages[(0 : Nat)]? = some c2Page from rfl, hPU]
  have hTU : Table.update c2CrashTable ⟨0, 0⟩ tBig =
      (.error (.storage "could not update tuple"), c2CrashTable) := by
    have hc : ¬ (tBig.values.length ≠ c2CrashTable.schema.length) := by decide
    simp only [Table.update, if_neg hc,
      show c2CrashTable.heap.get ⟨0, 0⟩ = some tSmall from by decide, hHU]
  have happ : undoApply c2CrashTable c2r4 ⟨0, 0⟩ = c2CrashTable := by
    simp only [undoApply, show c2r4.recType = .update from rfl,
      show c2r4.beforeImage = some tBig from rfl, hTU]
  have hstep4 : undoStep [2] (⟨[("t", c2CrashTable)]⟩ : DBState) c2r4 =
      .ok ⟨[("t", c2CrashTable)]⟩ := by
    rw [show undoStep [2] (⟨[("t", c2CrashTable)]⟩ : DBState) c2r4 =
      .ok ((⟨[("t", c2CrashTable)]⟩ : DBState).setTable "t"
        ((undoApply c2CrashTable c2r4 ⟨0, 0⟩).setPageLsn 0 4)) from rfl]
    rw [happ]
    rfl
  have hundo : List.foldlM (undoStep [2]) (⟨[("t", c2CrashTable)]⟩ : DBState)
      c2Log.reverse = .ok ⟨[("t", c2CrashTable)]⟩ := by
    rw [show c2Log.reverse = [c2r4, c2r3, c2r2, c2r1, c2r0] from rfl]
    rw [List.foldlM_cons, hstep4, excBindOk]
    rfl
  have hredo : List.foldlM (redoStep [1]) (⟨[("t", c2CrashTable)]⟩ : DBState)
      c2Log = .ok ⟨[("t", c2CrashTable)]⟩ := rfl
  have hrec : recover c2Log ⟨[("t", c2CrashTable)]⟩ = .ok ⟨[("t", c2CrashTable)]⟩ := by
    show (List.foldlM (redoStep (analyzeRecords c2Log).1)
        (⟨[("t", c2CrashTable)]⟩ : DBState) c2Log >>= fun st =>
      List.foldlM (undoStep (analyzeRecords c2Log).2) st c2Log.reverse) =
      .ok ⟨[("t", c2CrashTable)]⟩
    rw [show (analyzeRecords c2Log).1 = [1] from by decide,
      show (analyzeRecords c2Log).2 = [2] from by decide, hredo, excBindOk, hundo]
  refine ⟨hrec, by decide, by decide, ?_⟩
  intro he
  have hlen : tSmall.toBytes.length = tBig.toBytes.length := by rw [he]
  rw [hB] at hlen
  exact absurd hlen (by decide)

end ArcDB